import Mathlib

/-!
# Matrix camera renderer (`script.js`)

A shallow embedding of the camera-to-glyph renderer.  A JavaScript number is
a binary64 double; its value is represented here by a rational.  The pixel
arithmetic of lines 189-199 (luma, alpha, green and blue) rounds to the
nearest double, ties to even, after every operation (`fl`).  The glyph index
of line 129 is evaluated in exact arithmetic.  Loop counters, pixel offsets
and surface sizes, which only ever hold non-negative integers, are modelled by
`Nat`.  `undefined` is `none`.
-/

namespace MatrixCam

/-! ## Glyph selector (script.js lines 1-2, 127-131) -/

/-- The alphabet `matrixChars` (line 2).  Every character lies in the Basic
Multilingual Plane, so the list of characters is the list of UTF-16 code units
that JavaScript string indexing sees. -/
def matrixChars : List Char :=
  "アイウエオカキクケコサシスセソタチツテトナニヌネノハヒフヘホマミムメモヤユヨラリルレロワヲンABCDEFGHIJKLMNOPQRSTUVWXYZabcdefghijklmnopqrstuvwxyz譁ｭ怜遺促隕也阜縺ｮ蜈諤匁縺弱蜉ｩ縺代※縺上蜷梧悄逕0123456789".toList

/-- The expression `Math.floor((brightness / 255) * (matrixChars.length - 1))`
(line 129). -/
def glyphIndex (brightness : ℚ) : Int :=
  ⌊(brightness / 255) * ((matrixChars.length : ℚ) - 1)⌋

/-- JavaScript indexing `s[i]` of a string by an integer-valued number:
the character at `i`, or `undefined` (`none`) when `i` is negative or not
below the length. -/
def charAt (s : List Char) (i : Int) : Option Char :=
  if i < 0 then none else s[i.toNat]?

/-- The function `getCharFromBrightness` (lines 128-131). -/
def getCharFromBrightness (brightness : ℚ) : Option Char :=
  charAt matrixChars (glyphIndex brightness)

/-! ## Frame sampler and cell renderer (script.js lines 173-204) -/

/-- Rounding of a rational to the nearest integer, ties to the even one. -/
def roundHalfEven (x : ℚ) : Int :=
  if x - ⌊x⌋ < 1 / 2 then ⌊x⌋
  else if 1 / 2 < x - ⌊x⌋ then ⌊x⌋ + 1
  else if ⌊x⌋ % 2 = 0 then ⌊x⌋ else ⌊x⌋ + 1

/-- The binary exponent of the doubles around `x`: the `e` with
`2^e ≤ |x| < 2^(e+1)`, and `-1022` below the normal range. -/
def binade (x : ℚ) : Int := max (Int.log 2 |x|) (-1022)

/-- The spacing of the doubles around `x` (53 significant bits). -/
def ulp (x : ℚ) : ℚ := 2 ^ (binade x - 52)

/-- The double nearest to `x`, ties to the even significand: the value every
arithmetic operation and every decimal literal of the script produces.
Overflow to infinity (from `2^1024` on) is not modelled. -/
def fl (x : ℚ) : ℚ := roundHalfEven (x / ulp x) * ulp x

/-- The luma expression `r * 0.299 + g * 0.587 + b * 0.114` (line 189),
evaluated left to right in doubles. -/
def brightness (r g b : ℚ) : ℚ :=
  fl (fl (fl (r * fl 0.299) + fl (g * fl 0.587)) + fl (b * fl 0.114))

/-- The expression `Math.min(1, brightness / 200)` (line 195). -/
def alpha (brightness : ℚ) : ℚ :=
  min 1 (fl (brightness / 200))

/-- The expression `Math.min(255, brightness + 50)` (line 196). -/
def greenIntensity (brightness : ℚ) : ℚ :=
  min 255 (fl (brightness + 50))

/-- The four components substituted into the `rgba(...)` template (line 199). -/
structure RGBA where
  r : Int
  g : Int
  b : Int
  a : ℚ
  deriving DecidableEq, Repr

/-- The colour assigned to `ctx.fillStyle` (line 199): the template holds
`Math.floor(greenIntensity)`, `Math.floor(greenIntensity * 0.25)` and
`alpha`. -/
def fillStyle (brightness : ℚ) : RGBA :=
  { r := 0
    g := ⌊greenIntensity brightness⌋
    b := ⌊fl (greenIntensity brightness * 0.25)⌋
    a := alpha brightness }

/-- What one iteration of the inner loop hands to the drawing context: the
sampled position, the brightness, the glyph, the fill colour and the point at
which `fillText` centres the glyph. -/
structure Cell where
  x : Nat
  y : Nat
  brightness : ℚ
  char : Option Char
  fillStyle : RGBA
  textX : ℚ
  textY : ℚ
  deriving DecidableEq, Repr

/-- The body of the inner loop (lines 178-202) at sample position `(x, y)`:
`none` when the bounds check `index + 2 >= data.length` skips the sample.
The text position `x + step / 2` is an integer or a half-integer, which a
double holds without rounding at any surface size. -/
def sampleCell (width step : Nat) (data : List Nat) (x y : Nat) : Option Cell :=
  let index := (y * width + x) * 4
  if index + 2 ≥ data.length then none
  else
    let r := data.getD index 0
    let g := data.getD (index + 1) 0
    let b := data.getD (index + 2) 0
    let br := brightness r g b
    some
      { x := x
        y := y
        brightness := br
        char := getCharFromBrightness br
        fillStyle := fillStyle br
        textX := x + (step : ℚ) / 2
        textY := y + (step : ℚ) / 2 }

/-- The loop `for (let i = 0; i < bound; i += step) body(i)`, started at `i`,
collecting what the iterations emit.  `fuel` bounds the number of loop tests;
`none` means the fuel ran out (the JavaScript loop does not end when
`step = 0 < bound`). -/
def forLoop {α : Type} (bound step : Nat) (body : Nat → Option (List α)) :
    Nat → Nat → Option (List α)
  | 0, _ => none
  | fuel + 1, i =>
    if i < bound then
      match body i with
      | none => none
      | some out =>
        match forLoop bound step body fuel (i + step) with
        | none => none
        | some rest => some (out ++ rest)
    else some []

/-- The inner loop over `x` (lines 177-203) for one row `y`. -/
def sampleRow (width step : Nat) (data : List Nat) (fuel y : Nat) : Option (List Cell) :=
  forLoop width step (fun x => some (sampleCell width step data x y).toList) fuel 0

/-- The nested sampling loops of `renderMatrix` (lines 176-204): the cells
drawn, in drawing order. -/
def sampleLoop (width height step : Nat) (data : List Nat) (fuel : Nat) :
    Option (List Cell) :=
  forLoop height step (fun y => sampleRow width step data fuel y) fuel 0

/-- The values the inner loop variable `x` takes (line 177), every body being
run, none skipped. -/
def visitedColumns (width step fuel : Nat) : Option (List Nat) :=
  forLoop width step (fun x => some [x]) fuel 0

/-- The step-size expression `Math.max(6, Math.floor(canvas.width / 80))`
(line 70). -/
def charSizeFor (canvasWidth : Nat) : Nat :=
  max 6 ⌊(canvasWidth : ℚ) / 80⌋₊

/-! ## Session state and lifecycle (script.js lines 4-9, 36-125, 134-216) -/

/-- A variable or property that is `null` or refers to the one page object of
its kind (the video element, the canvas, its 2d context, the camera stream). -/
inductive Ref where
  | null
  | object
  deriving DecidableEq, Repr

/-- The pixels of the destination canvas: `blank` is the transparent bitmap a
canvas has when created or when its width or height is assigned; `drawn cells`
is an opaque black fill of the whole surface followed by the glyphs of
`cells`. -/
inductive Bitmap where
  | blank
  | drawn (cells : List Cell)
  deriving DecidableEq, Repr

/-- The module variables of script.js (lines 4-9 and 12) together with the
part of the page they act on.  The canvas style size (lines 59-67) and the
console output are not modelled. -/
structure State where
  video : Ref
  canvas : Ref
  ctx : Ref
  stream : Ref
  animationId : Option Nat
  charSize : Nat
  /-- `startBtn`: `none` when the element is missing, else its `disabled` flag. -/
  startBtn : Option Bool
  /-- `stopBtn`: `none` when the element is missing, else its `disabled` flag. -/
  stopBtn : Option Bool
  /-- `videoElement`, as found by `getElementById` (line 18). -/
  videoElement : Ref
  /-- `canvasElement`, as found by `getElementById` (line 19). -/
  canvasElement : Ref
  /-- The `srcObject` property of the video element. -/
  srcObject : Ref
  /-- Whether the tracks of the acquired camera stream are still live. -/
  tracksLive : Bool
  canvasWidth : Nat
  canvasHeight : Nat
  bitmap : Bitmap
  /-- Handles of the animation-frame callbacks the host has yet to run; the
  only callback ever registered is `renderMatrix`. -/
  pending : List Nat
  /-- The last handle the host gave out; handles are positive integers. -/
  lastHandle : Nat
  deriving DecidableEq, Repr

/-- What the host supplies to one run of `setupCanvas` or `renderMatrix`: the
video's native size, whether `drawImage` succeeds, and the bytes returned by
`getImageData`. -/
structure Frame where
  videoWidth : Nat
  videoHeight : Nat
  drawOk : Bool
  data : List Nat
  deriving DecidableEq, Repr

/-- Errors a script raises. -/
inductive JsError where
  | typeError
  deriving DecidableEq, Repr

/-- JavaScript truthiness of `animationId`: `null` and `0` are falsy. -/
def truthy : Option Nat → Bool
  | none => false
  | some h => h != 0

/-- Host primitive `requestAnimationFrame(renderMatrix)`: a fresh positive
handle, added to the pending callbacks. -/
def requestAnimationFrame (s : State) : Nat × State :=
  (s.lastHandle + 1,
    { s with lastHandle := s.lastHandle + 1, pending := s.pending ++ [s.lastHandle + 1] })

/-- Host primitive `cancelAnimationFrame(handle)`. -/
def cancelAnimationFrame (handle : Nat) (s : State) : State :=
  { s with pending := s.pending.filter (fun h => h != handle) }

/-- The statement `animationId = requestAnimationFrame(renderMatrix)`
(lines 141, 156, 207). -/
def scheduleNext (s : State) : State :=
  { (requestAnimationFrame s).2 with animationId := some (requestAnimationFrame s).1 }

/-- The statement `stream.getTracks().forEach(track => track.stop())`
(line 110); dereferencing a `null` stream raises. -/
def stopTracks (s : State) : Except JsError State :=
  match s.stream with
  | .null => .error .typeError
  | .object => .ok { s with tracksLive := false }

/-- The statement `video.srcObject = value` (lines 83, 115). -/
def setSrcObject (value : Ref) (s : State) : Except JsError State :=
  match s.video with
  | .null => .error .typeError
  | .object => .ok { s with srcObject := value }

/-- The statements `ctx.fillStyle = '#000'; ctx.fillRect(0, 0, canvas.width,
canvas.height)` (lines 119-120, 165-166). -/
def fillBlack (s : State) : Except JsError State :=
  match s.ctx, s.canvas with
  | .object, .object => .ok { s with bitmap := .drawn [] }
  | _, _ => .error .typeError

/-- The function `stopCamera` (lines 103-125). -/
def stopCamera (s : State) : Except JsError State := do
  let s := if truthy s.animationId then
      { cancelAnimationFrame (s.animationId.getD 0) s with animationId := none }
    else s
  let s ← if s.stream = .object then
      (do let s ← stopTracks s; pure { s with stream := .null })
    else pure s
  let s ← if s.video = .object then setSrcObject .null s else pure s
  let s ← if s.ctx = .object ∧ s.canvas = .object then fillBlack s else pure s
  let s := if s.startBtn.isSome then { s with startBtn := some false } else s
  let s := if s.stopBtn.isSome then { s with stopBtn := some true } else s
  pure s

/-- The function `renderMatrix` (lines 134-208).  `none` means the sampling
loop ran out of fuel. -/
def renderMatrix (fuel : Nat) (f : Frame) (s : State) : Option State :=
  if s.video = .null ∨ s.ctx = .null ∨ s.canvas = .null then some s
  else if f.videoWidth = 0 ∨ f.videoHeight = 0 ∨ s.canvasWidth = 0 ∨ s.canvasHeight = 0 then
    some (scheduleNext s)
  else if f.drawOk = false then some (scheduleNext s)
  else
    match sampleLoop s.canvasWidth s.canvasHeight s.charSize f.data fuel with
    | none => none
    | some cells => some (scheduleNext { s with bitmap := .drawn cells })

/-- The function `startRendering` (lines 211-216). -/
def startRendering (fuel : Nat) (f : Frame) (s : State) : Option State :=
  renderMatrix fuel f
    (if truthy s.animationId then cancelAnimationFrame (s.animationId.getD 0) s else s)

/-- The closure `setupCanvas` (lines 52-80); the retry timer of line 78 is
not recorded in the state. -/
def setupCanvas (fuel : Nat) (f : Frame) (s : State) : Option State :=
  if 0 < f.videoWidth ∧ 0 < f.videoHeight then
    startRendering fuel f
      { s with
        canvasWidth := f.videoWidth
        canvasHeight := f.videoHeight
        bitmap := .blank
        charSize := charSizeFor f.videoWidth }
  else some s

/-- The part of `startCamera` that runs once `getUserMedia` has resolved
(lines 39-86); a `TypeError` on a missing element is caught at line 96. -/
def startCameraGranted (s : State) : State :=
  let s := { s with stream := .object, tracksLive := true }
  let s := { s with video := s.videoElement, canvas := s.canvasElement }
  match s.canvas with
  | .null => s
  | .object =>
    let s := { s with ctx := .object }
    match setSrcObject .object s with
    | .error _ => s
    | .ok s => s

/-- The part of `startCamera` that runs once `video.play()` has resolved
(lines 91-95). -/
def startCameraPlaying (s : State) : State :=
  match s.startBtn with
  | none => s
  | some _ =>
    let s := { s with startBtn := some true }
    match s.stopBtn with
    | none => s
    | some _ => { s with stopBtn := some false }

/-- A tick: the host takes the pending callback `handle` off its list and runs
`renderMatrix`. -/
def tick (handle fuel : Nat) (f : Frame) (s : State) : Option State :=
  if handle ∈ s.pending then
    renderMatrix fuel f { s with pending := s.pending.erase handle }
  else none

/-- The state once the page has loaded (lines 4-9, 15-30), for a page with
all four elements present. -/
def initialState : State :=
  { video := .null, canvas := .null, ctx := .null, stream := .null
    animationId := none, charSize := 8
    startBtn := some false, stopBtn := some true
    videoElement := .object, canvasElement := .object
    srcObject := .null, tracksLive := false
    canvasWidth := 640, canvasHeight := 480, bitmap := .blank
    pending := [], lastHandle := 0 }

/-- States of a page that has loaded and in which no script function has run
yet: the module variables hold their initial values and nothing is
scheduled. -/
def Initial (s : State) : Prop :=
  s.video = .null ∧ s.canvas = .null ∧ s.ctx = .null ∧ s.stream = .null ∧
  s.animationId = none ∧ s.charSize = 8 ∧ s.srcObject = .null ∧
  s.tracksLive = false ∧ s.bitmap = .blank ∧ s.pending = []

/-- One transition of the session: an entry point or a callback of script.js
runs to completion.  `setupCanvas` exists only after `startCameraGranted` has
set `video`, `canvas` and `ctx`; when it fires is left open. -/
inductive Step : State → State → Prop where
  | startCameraGranted (s : State) : Step s (startCameraGranted s)
  | startCameraPlaying (s : State) : Step s (startCameraPlaying s)
  | setupCanvas (fuel : Nat) (f : Frame) (s t : State)
      (hv : s.video = .object) (hc : s.canvas = .object) (hx : s.ctx = .object)
      (h : setupCanvas fuel f s = some t) : Step s t
  | startRendering (fuel : Nat) (f : Frame) (s t : State)
      (h : startRendering fuel f s = some t) : Step s t
  | tick (handle fuel : Nat) (f : Frame) (s t : State)
      (h : tick handle fuel f s = some t) : Step s t
  | stopCamera (s t : State) (h : stopCamera s = .ok t) : Step s t

/-- States the session can be in. -/
inductive Reachable : State → Prop where
  | init (s : State) (h : Initial s) : Reachable s
  | step (s t : State) (hs : Reachable s) (h : Step s t) : Reachable t

/-- At most one tick is pending, and a pending tick is the one whose positive
handle is stored in `animationId`. -/
def SingleLoop (s : State) : Prop :=
  s.pending.length ≤ 1 ∧ ∀ h ∈ s.pending, s.animationId = some h ∧ h ≠ 0

/-! ## Auxiliary definitions for the proofs -/

/-- The values a loop variable takes in `for (i = 0; i < bound; i += step)`. -/
def gridPoints (bound step : Nat) : List Nat :=
  (List.range ((bound + step - 1) / step)).map (fun j => j * step)

/-- The cell drawn at `(x, y)` when the bounds check passes. -/
def cellAt (step : Nat) (r g b : ℚ) (x y : Nat) : Cell :=
  { x := x
    y := y
    brightness := brightness r g b
    char := getCharFromBrightness (brightness r g b)
    fillStyle := fillStyle (brightness r g b)
    textX := x + (step : ℚ) / 2
    textY := y + (step : ℚ) / 2 }

/-- The cell `sampleCell` draws at `(x, y)` from the bytes of `data`. -/
def cellOf (width step : Nat) (data : List Nat) (x y : Nat) : Cell :=
  cellAt step (data.getD ((y * width + x) * 4) 0) (data.getD ((y * width + x) * 4 + 1) 0)
    (data.getD ((y * width + x) * 4 + 2) 0) x y

/-- The state `stopCamera` returns, written out field by field. -/
def stopped (s : State) : State :=
  { s with
    animationId := if truthy s.animationId then none else s.animationId
    pending := if truthy s.animationId then
        s.pending.filter (fun h => h != s.animationId.getD 0)
      else s.pending
    stream := .null
    tracksLive := if s.stream = .object then false else s.tracksLive
    srcObject := if s.video = .object then .null else s.srcObject
    bitmap := if s.ctx = .object ∧ s.canvas = .object then .drawn [] else s.bitmap
    startBtn := if s.startBtn.isSome then some false else s.startBtn
    stopBtn := if s.stopBtn.isSome then some true else s.stopBtn }

/-- The inductive invariant of the session: the single-loop property, every
pending handle has already been given out, and `animationId` is never `0`. -/
def Inv (s : State) : Prop :=
  SingleLoop s ∧ (∀ h ∈ s.pending, h ≤ s.lastHandle) ∧ s.animationId ≠ some 0

/-- The session after a successful start whose first frame could not be
copied yet: the camera is attached and one tick, with handle 1, is pending. -/
def runningState : State :=
  { video := .object, canvas := .object, ctx := .object, stream := .object
    animationId := some 1, charSize := 8
    startBtn := some false, stopBtn := some true
    videoElement := .object, canvasElement := .object
    srcObject := .object, tracksLive := true
    canvasWidth := 640, canvasHeight := 480, bitmap := .blank
    pending := [1], lastHandle := 1 }

/-! ## The alphabet and the glyph index -/

theorem matrixChars_length : matrixChars.length = 134 := rfl

theorem matrixChars_head : matrixChars[0]? = some 'ア' := by
  rw [← List.get?_eq_getElem?]; rfl

theorem matrixChars_last : matrixChars[133]? = some '9' := by
  rw [← List.get?_eq_getElem?]; rfl

theorem glyphIndex_zero : glyphIndex 0 = 0 := by
  simp [glyphIndex]

theorem glyphIndex_255 : glyphIndex 255 = 133 := by
  simp [glyphIndex, matrixChars_length]

theorem glyphIndex_eq (b : ℚ) : glyphIndex b = ⌊b / 255 * 133⌋ := by
  simp only [glyphIndex, matrixChars_length]
  norm_num

theorem glyphIndex_mono {b1 b2 : ℚ} (h : b1 ≤ b2) : glyphIndex b1 ≤ glyphIndex b2 := by
  rw [glyphIndex_eq, glyphIndex_eq]
  apply Int.floor_mono
  have : b1 / 255 ≤ b2 / 255 := div_le_div_of_nonneg_right h (by norm_num)
  exact mul_le_mul_of_nonneg_right this (by norm_num)

theorem glyphIndex_nonneg_iff (b : ℚ) : 0 ≤ glyphIndex b ↔ 0 ≤ b := by
  rw [glyphIndex_eq, Int.floor_nonneg]
  constructor
  · intro h
    by_contra hb
    push_neg at hb
    have : b / 255 * 133 < 0 := by linarith
    linarith
  · intro h
    positivity

theorem glyphIndex_lt_iff (b : ℚ) : glyphIndex b < 134 ↔ b < 34170 / 133 := by
  rw [glyphIndex_eq, Int.floor_lt]
  constructor
  · intro h
    have h1 : b / 255 * 133 < 134 := by exact_mod_cast h
    linarith
  · intro h
    have h1 : b / 255 * 133 < 134 := by linarith
    exact_mod_cast h1

theorem charAt_eq_of_nonneg {s : List Char} {i : Int} (h : 0 ≤ i) :
    charAt s i = s[i.toNat]? := by
  simp [charAt, not_lt.mpr h]

theorem glyphIndex_le_of_le_255 {b : ℚ} (h : b ≤ 255) : glyphIndex b ≤ 133 := by
  have := glyphIndex_mono h
  rwa [glyphIndex_255] at this

/-! ## The sampling loops -/

theorem forLoop_from {α : Type} (bound step : Nat) (body : Nat → Option (List α))
    (f : Nat → List α) (hbody : ∀ i, body i = some (f i)) :
    ∀ (n k fuel : Nat), n < fuel → (∀ j, j < n → (k + j) * step < bound) →
      bound ≤ (k + n) * step →
      forLoop bound step body fuel (k * step) =
        some (((List.range' k n).map (fun j => j * step)).flatMap f) := by
  intro n
  induction n with
  | zero =>
    intro k fuel hf _ hb
    obtain ⟨fuel, rfl⟩ : ∃ m, fuel = m + 1 := ⟨fuel - 1, by omega⟩
    have : ¬ k * step < bound := by simpa using hb
    simp [forLoop, this]
  | succ n ih =>
    intro k fuel hf hlt hb
    obtain ⟨fuel, rfl⟩ : ∃ m, fuel = m + 1 := ⟨fuel - 1, by omega⟩
    have h0 : k * step < bound := by simpa using hlt 0 (by omega)
    have hrec := ih (k + 1) fuel (by omega)
      (fun j hj => by have := hlt (j + 1) (by omega); rwa [← Nat.add_assoc, Nat.add_right_comm] at this)
      (by rwa [Nat.add_assoc, Nat.add_comm 1 n])
    rw [Nat.succ_mul] at hrec
    simp [forLoop, h0, hbody, hrec, List.range'_succ]

theorem ceilDiv_bounds (bound : Nat) {step : Nat} (hstep : 0 < step) :
    bound ≤ (bound + step - 1) / step * step ∧
    (∀ j, j < (bound + step - 1) / step → j * step < bound) ∧
    (bound + step - 1) / step ≤ bound := by
  have hdm := Nat.div_add_mod (bound + step - 1) step
  have hmod := Nat.mod_lt (bound + step - 1) hstep
  rw [Nat.mul_comm] at hdm
  refine ⟨by omega, ?_, ?_⟩
  · intro j hj
    have : (j + 1) * step ≤ (bound + step - 1) / step * step :=
      Nat.mul_le_mul_right step hj
    rw [Nat.succ_mul] at this
    omega
  · rcases Nat.eq_zero_or_pos bound with h | h
    · subst h
      have : (step - 1) / step = 0 := Nat.div_eq_of_lt (by omega)
      simp [this]
    · apply Nat.le_of_lt_succ
      rw [Nat.div_lt_iff_lt_mul hstep]
      have : bound * 1 ≤ bound * step := Nat.mul_le_mul_left bound hstep
      rw [Nat.succ_mul]
      omega

theorem forLoop_eq {α : Type} (bound step : Nat) (body : Nat → Option (List α))
    (f : Nat → List α) (hbody : ∀ i, body i = some (f i)) (hstep : 0 < step) (extra : Nat) :
    forLoop bound step body (bound + 1 + extra) 0 = some ((gridPoints bound step).flatMap f) := by
  obtain ⟨h1, h2, h3⟩ := ceilDiv_bounds bound hstep
  have := forLoop_from bound step body f hbody ((bound + step - 1) / step) 0
    (bound + 1 + extra) (by omega) (fun j hj => by simpa using h2 j hj) (by simpa using h1)
  simpa [gridPoints, List.range_eq_range'] using this

theorem mem_gridPoints {bound step : Nat} (hstep : 0 < step) (x : Nat) :
    x ∈ gridPoints bound step ↔ (step ∣ x ∧ x < bound) := by
  obtain ⟨h1, h2, _⟩ := ceilDiv_bounds bound hstep
  simp only [gridPoints, List.mem_map, List.mem_range]
  constructor
  · rintro ⟨j, hj, rfl⟩
    exact ⟨Dvd.intro_left j rfl, h2 j hj⟩
  · rintro ⟨⟨j, rfl⟩, hx⟩
    refine ⟨j, ?_, Nat.mul_comm _ _⟩
    by_contra hge
    push_neg at hge
    have : (bound + step - 1) / step * step ≤ j * step := Nat.mul_le_mul_right step hge
    rw [Nat.mul_comm step j] at hx
    omega

theorem nodup_gridPoints {bound step : Nat} (hstep : 0 < step) :
    (gridPoints bound step).Nodup := by
  apply List.Nodup.map _ (List.nodup_range _)
  intro a b hab
  exact Nat.eq_of_mul_eq_mul_right hstep hab

theorem length_gridPoints (bound step : Nat) :
    (gridPoints bound step).length = (bound + step - 1) / step := by
  simp [gridPoints]

theorem ceil_div_eq {bound step : Nat} (hstep : 0 < step) :
    ⌈(bound : ℚ) / step⌉₊ = (bound + step - 1) / step := by
  obtain ⟨h1, _, _⟩ := ceilDiv_bounds bound hstep
  have hs : (0 : ℚ) < step := by exact_mod_cast hstep
  apply le_antisymm
  · rw [Nat.ceil_le, div_le_iff₀ hs]
    exact_mod_cast h1
  · have hc : (bound : ℚ) / step ≤ ⌈(bound : ℚ) / step⌉₊ := Nat.le_ceil _
    rw [div_le_iff₀ hs] at hc
    have hc' : bound ≤ ⌈(bound : ℚ) / step⌉₊ * step := by exact_mod_cast hc
    apply Nat.le_of_lt_succ
    rw [Nat.div_lt_iff_lt_mul hstep, Nat.succ_mul]
    omega

theorem index_in_bounds {W H x y : Nat} {data : List Nat}
    (hlen : data.length = 4 * W * H) (hx : x < W) (hy : y < H) :
    (y * W + x) * 4 + 2 < data.length := by
  have h1 : (y + 1) * W ≤ H * W := Nat.mul_le_mul_right W hy
  rw [Nat.succ_mul] at h1
  have h2 : 4 * W * H = 4 * (H * W) := by ring
  omega

theorem sampleCell_eq {W s x y : Nat} {data : List Nat}
    (h : (y * W + x) * 4 + 2 < data.length) :
    sampleCell W s data x y = some (cellOf W s data x y) := by
  have : ¬ (y * W + x) * 4 + 2 ≥ data.length := by omega
  simp [sampleCell, this, cellOf, cellAt]

theorem flatMap_congr_mem {α β : Type} (l : List α) (f g : α → List β)
    (h : ∀ a ∈ l, f a = g a) : l.flatMap f = l.flatMap g := by
  induction l with
  | nil => rfl
  | cons a l ih =>
    simp only [List.flatMap_cons]
    rw [h a (List.mem_cons_self a l), ih (fun b hb => h b (List.mem_cons_of_mem a hb))]

theorem flatMap_toList_eq_map {α β : Type} (l : List α) (g : α → Option β) (c : α → β)
    (h : ∀ a ∈ l, g a = some (c a)) : l.flatMap (fun a => (g a).toList) = l.map c := by
  induction l with
  | nil => rfl
  | cons a l ih =>
    simp only [List.flatMap_cons, List.map_cons]
    rw [h a (List.mem_cons_self a l), ih (fun b hb => h b (List.mem_cons_of_mem a hb))]
    rfl

theorem sampleRow_eq (W s : Nat) (data : List Nat) (y : Nat) (hs : 0 < s) (extra : Nat) :
    sampleRow W s data (W + 1 + extra) y =
      some ((gridPoints W s).flatMap (fun x => (sampleCell W s data x y).toList)) :=
  forLoop_eq W s _ _ (fun _ => rfl) hs extra

theorem sampleLoop_eq (W H s : Nat) (data : List Nat) (hs : 0 < s) (extra : Nat) :
    sampleLoop W H s data (W + H + 1 + extra) =
      some ((gridPoints H s).flatMap (fun y =>
        (gridPoints W s).flatMap (fun x => (sampleCell W s data x y).toList))) := by
  unfold sampleLoop
  have e1 : W + H + 1 + extra = H + 1 + (W + extra) := by omega
  have e2 : H + 1 + (W + extra) = W + 1 + (H + extra) := by omega
  rw [e1]
  apply forLoop_eq H s _ _ _ hs
  intro y
  rw [e2]
  exact sampleRow_eq W s data y hs (H + extra)

theorem sampleLoop_full (W H s : Nat) (data : List Nat) (hs : 0 < s)
    (hlen : data.length = 4 * W * H) (extra : Nat) :
    sampleLoop W H s data (W + H + 1 + extra) =
      some ((gridPoints H s).flatMap (fun y =>
        (gridPoints W s).map (fun x => cellOf W s data x y))) := by
  rw [sampleLoop_eq W H s data hs extra]
  congr 1
  apply flatMap_congr_mem
  intro y hy
  apply flatMap_toList_eq_map
  intro x hx
  exact sampleCell_eq (index_in_bounds hlen ((mem_gridPoints hs x).mp hx).2
    ((mem_gridPoints hs y).mp hy).2)

theorem positions_eq (W H s : Nat) (data : List Nat) :
    ((gridPoints H s).flatMap (fun y =>
        (gridPoints W s).map (fun x => cellOf W s data x y))).map (fun c => (c.x, c.y)) =
      ((gridPoints H s) ×ˢ (gridPoints W s)).map Prod.swap := by
  simp only [SProd.sprod, List.product, List.map_flatMap, List.map_map]
  rfl

theorem flatMap_singleton_eq {α : Type} (l : List α) : l.flatMap (fun a => [a]) = l := by
  induction l with
  | nil => rfl
  | cons a l ih => simp only [List.flatMap_cons, ih, List.singleton_append]

theorem charSizeFor_eq (w : Nat) : charSizeFor w = max 6 (w / 80) := by
  unfold charSizeFor
  have h : ⌊(w : ℚ) / 80⌋₊ = w / 80 := by
    have := Nat.floor_div_eq_div (α := ℚ) w 80
    simpa using this
  rw [h]

theorem charSizeFor_pos (w : Nat) : 0 < charSizeFor w := by
  rw [charSizeFor_eq]; omega

theorem columns_le (w : Nat) : (w + charSizeFor w - 1) / charSizeFor w ≤ 94 := by
  rw [charSizeFor_eq]
  rcases Nat.lt_or_ge (w / 80) 7 with h | h
  · have h6 : max 6 (w / 80) = 6 := by omega
    rw [h6]
    omega
  · have hq : max 6 (w / 80) = w / 80 := by omega
    rw [hq]
    apply Nat.le_of_lt_succ
    rw [Nat.div_lt_iff_lt_mul (by omega)]
    omega

theorem length_flatMap_toList_le {α β : Type} (l : List α) (g : α → Option β) :
    (l.flatMap (fun a => (g a).toList)).length ≤ l.length := by
  induction l with
  | nil => simp
  | cons a l ih =>
    simp only [List.flatMap_cons, List.length_append, List.length_cons]
    have : (g a).toList.length ≤ 1 := by cases g a <;> simp [Option.toList]
    omega

/-! ## Rounding to the nearest double -/

theorem roundHalfEven_bounds (x : ℚ) :
    (roundHalfEven x : ℚ) ≤ x + 1 / 2 ∧ x - 1 / 2 ≤ roundHalfEven x := by
  have h1 : (⌊x⌋ : ℚ) ≤ x := Int.floor_le x
  have h2 : x < ⌊x⌋ + 1 := Int.lt_floor_add_one x
  unfold roundHalfEven
  split_ifs with ha hb hc
  · constructor <;> linarith
  · push_cast; constructor <;> linarith
  · constructor <;> linarith
  · push_cast
    have : x - ⌊x⌋ = 1 / 2 := le_antisymm (not_lt.mp hb) (not_lt.mp ha)
    constructor <;> linarith

theorem roundHalfEven_intCast (n : Int) : roundHalfEven (n : ℚ) = n := by
  simp [roundHalfEven]

theorem roundHalfEven_mono {x y : ℚ} (h : x ≤ y) : roundHalfEven x ≤ roundHalfEven y := by
  by_contra hlt
  push_neg at hlt
  have h1 : (roundHalfEven y : ℚ) + 1 ≤ roundHalfEven x := by exact_mod_cast hlt
  have hx := (roundHalfEven_bounds x).1
  have hy := (roundHalfEven_bounds y).2
  have hxy : x = y := le_antisymm h (by linarith)
  subst hxy
  exact absurd hlt (lt_irrefl _)

theorem roundHalfEven_le_int {x : ℚ} {n : Int} (h : x ≤ n) : roundHalfEven x ≤ n := by
  have := roundHalfEven_mono h
  rwa [roundHalfEven_intCast] at this

theorem int_le_roundHalfEven {x : ℚ} {n : Int} (h : (n : ℚ) ≤ x) : n ≤ roundHalfEven x := by
  have := roundHalfEven_mono h
  rwa [roundHalfEven_intCast] at this

theorem roundHalfEven_eq_of_abs_lt {x : ℚ} (n : Int) (h : |x - n| < 1 / 2) :
    roundHalfEven x = n := by
  rw [abs_lt] at h
  obtain ⟨hlo, hhi⟩ := h
  have hb := roundHalfEven_bounds x
  have h1 : (roundHalfEven x : ℚ) < n + 1 := by linarith [hb.1]
  have h2 : (n : ℚ) - 1 < roundHalfEven x := by linarith [hb.2]
  have h1' : roundHalfEven x < n + 1 := by exact_mod_cast h1
  have h2' : n - 1 < roundHalfEven x := by exact_mod_cast h2
  omega

theorem binade_ge (x : ℚ) : -1022 ≤ binade x := le_max_right _ _

theorem ulp_pos (x : ℚ) : 0 < ulp x := by
  unfold ulp; positivity

theorem abs_lt_zpow_binade (x : ℚ) : |x| < 2 ^ (binade x + 1) := by
  have h := Int.lt_zpow_succ_log_self (b := 2) (by norm_num) |x|
  have hle : Int.log 2 |x| + 1 ≤ binade x + 1 := by
    have := le_max_left (Int.log 2 |x|) (-1022)
    unfold binade; omega
  have : ((2 : ℕ) : ℚ) ^ (Int.log 2 |x| + 1) ≤ (2 : ℚ) ^ (binade x + 1) := by
    rw [Nat.cast_ofNat]
    exact zpow_le_zpow_right₀ (by norm_num) hle
  exact lt_of_lt_of_le h this

theorem binade_eq_of {x : ℚ} (k : Int) (hk : -1022 ≤ k) (h1 : 2 ^ k ≤ |x|)
    (h2 : |x| < 2 ^ (k + 1)) : binade x = k := by
  have hpos : 0 < |x| := lt_of_lt_of_le (by positivity) h1
  have a1 : k ≤ Int.log 2 |x| := by
    rw [← Int.zpow_le_iff_le_log (by norm_num) hpos]
    simpa using h1
  have a2 : Int.log 2 |x| < k + 1 := by
    rw [← Int.lt_zpow_iff_log_lt (by norm_num) hpos]
    simpa using h2
  unfold binade
  omega

theorem binade_le_of_lt {x : ℚ} (j : Int) (hj : -1022 ≤ j) (hx : x ≠ 0 ∨ 0 ≤ j)
    (h : |x| < 2 ^ (j + 1)) : binade x ≤ j := by
  unfold binade
  apply max_le _ hj
  rcases eq_or_ne x 0 with h0 | h0
  · rcases hx with hx | hx
    · exact absurd h0 hx
    · subst h0; simpa using hx
  · have hpos : 0 < |x| := abs_pos.mpr h0
    have : Int.log 2 |x| < j + 1 := by
      rw [← Int.lt_zpow_iff_log_lt (by norm_num) hpos]
      simpa using h
    omega

theorem zpow_binade_le {x : ℚ} (hx : x ≠ 0) (hb : -1022 < binade x) :
    2 ^ binade x ≤ |x| := by
  have hpos : 0 < |x| := abs_pos.mpr hx
  have hlog : binade x = Int.log 2 |x| := by
    unfold binade at hb ⊢
    omega
  rw [hlog]
  simpa using Int.zpow_log_le_self (b := 2) (by norm_num) hpos

theorem fl_zero : fl 0 = 0 := by
  simp [fl, roundHalfEven]

theorem fl_abs_err (x : ℚ) : |fl x - x| ≤ ulp x / 2 := by
  have hu := ulp_pos x
  have hb := roundHalfEven_bounds (x / ulp x)
  have hx : x = x / ulp x * ulp x := by field_simp
  unfold fl
  rw [abs_le]
  constructor
  · have := mul_le_mul_of_nonneg_right hb.2 hu.le
    nlinarith
  · have := mul_le_mul_of_nonneg_right hb.1 hu.le
    nlinarith

theorem ulp_le_of_lt {x : ℚ} (j : Int) (hj : -1022 ≤ j) (hx : x ≠ 0 ∨ 0 ≤ j)
    (h : |x| < 2 ^ (j + 1)) : ulp x ≤ 2 ^ (j - 52) := by
  unfold ulp
  apply zpow_le_zpow_right₀ (by norm_num)
  have := binade_le_of_lt j hj hx h
  omega

theorem fl_err_of_lt {x : ℚ} (j : Int) (hj : -1022 ≤ j) (hx : x ≠ 0 ∨ 0 ≤ j)
    (h : |x| < 2 ^ (j + 1)) : |fl x - x| ≤ 2 ^ (j - 53) := by
  have h1 := fl_abs_err x
  have h2 := ulp_le_of_lt j hj hx h
  have h3 : (2 : ℚ) ^ (j - 52) / 2 = 2 ^ (j - 53) := by
    rw [show j - 52 = (j - 53) + 1 by ring, zpow_add_one₀ (by norm_num)]
    ring
  linarith

theorem grid_eq (x : ℚ) (n e : Int) (he : binade x - 52 ≤ e) :
    (n : ℚ) * 2 ^ e = ((n * 2 ^ (e - (binade x - 52)).toNat : Int) : ℚ) * ulp x := by
  have hnn : 0 ≤ e - (binade x - 52) := by omega
  have hz : (2 : ℚ) ^ e = 2 ^ (e - (binade x - 52)) * 2 ^ (binade x - 52) := by
    rw [← zpow_add₀ (by norm_num)]
    congr 1
    ring
  have hc : (2 : ℚ) ^ (e - (binade x - 52)) = 2 ^ (e - (binade x - 52)).toNat := by
    conv_lhs => rw [← Int.toNat_of_nonneg hnn]
    rw [zpow_natCast]
  unfold ulp
  push_cast
  rw [hz, hc]
  ring

theorem fl_le_of_grid {x : ℚ} (n e : Int) (he : binade x - 52 ≤ e) (hx : x ≤ n * 2 ^ e) :
    fl x ≤ n * 2 ^ e := by
  have hu := ulp_pos x
  rw [grid_eq x n e he] at hx ⊢
  unfold fl
  apply mul_le_mul_of_nonneg_right _ hu.le
  have : x / ulp x ≤ ((n * 2 ^ (e - (binade x - 52)).toNat : Int) : ℚ) := by
    rw [div_le_iff₀ hu]
    exact hx
  exact_mod_cast roundHalfEven_le_int this

theorem grid_le_fl {x : ℚ} (n e : Int) (he : binade x - 52 ≤ e) (hx : (n : ℚ) * 2 ^ e ≤ x) :
    (n : ℚ) * 2 ^ e ≤ fl x := by
  have hu := ulp_pos x
  rw [grid_eq x n e he] at hx ⊢
  unfold fl
  apply mul_le_mul_of_nonneg_right _ hu.le
  have : ((n * 2 ^ (e - (binade x - 52)).toNat : Int) : ℚ) ≤ x / ulp x := by
    rw [le_div_iff₀ hu]
    exact hx
  exact_mod_cast int_le_roundHalfEven this

theorem fl_of_grid {x : ℚ} (n e : Int) (he : binade x - 52 ≤ e) (hx : x = n * 2 ^ e) :
    fl x = x :=
  le_antisymm (by rw [hx]; exact fl_le_of_grid n e (by rw [← hx]; exact he) (by rw [← hx]))
    (by
      have := grid_le_fl (x := x) n e he hx.ge
      rwa [← hx] at this)

theorem fl_nonneg {x : ℚ} (h : 0 ≤ x) : 0 ≤ fl x := by
  have := grid_le_fl (x := x) 0 (binade x - 52) le_rfl (by simpa using h)
  simpa using this

theorem fl_mono_nonneg {x y : ℚ} (h0 : 0 ≤ x) (h : x ≤ y) : fl x ≤ fl y := by
  rcases eq_or_lt_of_le h0 with hx0 | hxpos
  · rw [← hx0, fl_zero]
    exact fl_nonneg (h0.trans h)
  have hypos : 0 < y := lt_of_lt_of_le hxpos h
  have hlog : Int.log 2 |x| ≤ Int.log 2 |y| := by
    rw [abs_of_pos hxpos, abs_of_pos hypos]
    exact Int.log_mono_right hxpos h
  have hb : binade x ≤ binade y := by
    unfold binade; omega
  rcases eq_or_lt_of_le hb with heq | hlt
  · have hu : ulp x = ulp y := by unfold ulp; rw [heq]
    unfold fl
    rw [hu]
    apply mul_le_mul_of_nonneg_right _ (ulp_pos y).le
    exact_mod_cast roundHalfEven_mono (div_le_div_of_nonneg_right h (ulp_pos y).le)
  · have hxlt := abs_lt_zpow_binade x
    rw [abs_of_pos hxpos] at hxlt
    have hyge := zpow_binade_le hypos.ne' (lt_of_le_of_lt (binade_ge x) hlt)
    rw [abs_of_pos hypos] at hyge
    have hstep : (2 : ℚ) ^ (binade x + 1) ≤ 2 ^ binade y :=
      zpow_le_zpow_right₀ (by norm_num) (by omega)
    have h1 : fl x ≤ ((1 : Int) : ℚ) * 2 ^ binade y :=
      fl_le_of_grid 1 (binade y) (by omega) (by push_cast; linarith)
    have h2 : ((1 : Int) : ℚ) * 2 ^ binade y ≤ fl y :=
      grid_le_fl 1 (binade y) (by omega) (by push_cast; linarith)
    exact h1.trans h2

theorem fl_eq_of {x : ℚ} (k n : Int) (hk : -1022 ≤ k) (h1 : 2 ^ k ≤ |x|)
    (h2 : |x| < 2 ^ (k + 1)) (hn : |x / 2 ^ (k - 52) - n| < 1 / 2) :
    fl x = n * 2 ^ (k - 52) := by
  unfold fl ulp
  rw [binade_eq_of k hk h1 h2, roundHalfEven_eq_of_abs_lt n hn]

theorem fl_idem (x : ℚ) : fl (fl x) = fl x := by
  have hu := ulp_pos x
  have hlt := abs_lt_zpow_binade x
  have hux : (2 : ℚ) ^ (binade x + 1) = 2 ^ 53 * ulp x := by
    unfold ulp
    rw [← zpow_natCast, ← zpow_add₀ (by norm_num)]
    congr 1
    push_cast
    ring
  rw [abs_lt] at hlt
  have hhi : roundHalfEven (x / ulp x) ≤ 2 ^ 53 := by
    apply roundHalfEven_le_int
    rw [div_le_iff₀ hu]
    push_cast
    linarith
  have hlo : -(2 ^ 53) ≤ roundHalfEven (x / ulp x) := by
    apply int_le_roundHalfEven
    rw [le_div_iff₀ hu]
    push_cast
    linarith
  have hfl : fl x = roundHalfEven (x / ulp x) * 2 ^ (binade x - 52) := rfl
  rcases eq_or_ne (fl x) 0 with h0 | h0
  · rw [h0, fl_zero]
  have habs : |fl x| ≤ 2 ^ (binade x + 1) := by
    rw [hux, abs_le]
    have a1 : ((roundHalfEven (x / ulp x) : Int) : ℚ) ≤ 2 ^ 53 := by exact_mod_cast hhi
    have a2 : -(2 ^ 53 : ℚ) ≤ ((roundHalfEven (x / ulp x) : Int) : ℚ) := by exact_mod_cast hlo
    unfold fl
    constructor
    · nlinarith
    · nlinarith
  rcases eq_or_lt_of_le habs with heq | hlt2
  · have hb : binade (fl x) = binade x + 1 :=
      binade_eq_of (binade x + 1) (by have := binade_ge x; omega) heq.ge
        (by rw [heq]; exact zpow_lt_zpow_right₀ (by norm_num) (by omega))
    rcases (abs_eq (by positivity)).mp heq with hp | hm
    · exact fl_of_grid 1 (binade x + 1) (by omega) (by rw [hp]; simp)
    · exact fl_of_grid (-1) (binade x + 1) (by omega) (by rw [hm]; simp)
  · have hb : binade (fl x) ≤ binade x :=
      binade_le_of_lt (binade x) (binade_ge x) (Or.inl h0) hlt2
    exact fl_of_grid (roundHalfEven (x / ulp x)) (binade x - 52) (by omega) hfl

theorem fl_eq_of_pos {x : ℚ} (k n : Int) (hk : -1022 ≤ k) (h1 : 2 ^ k ≤ x)
    (h2 : x < 2 ^ (k + 1)) (hn1 : ((n : ℚ) - 1 / 2) * 2 ^ (k - 52) < x)
    (hn2 : x < ((n : ℚ) + 1 / 2) * 2 ^ (k - 52)) :
    fl x = n * 2 ^ (k - 52) := by
  have hpos : 0 < x := lt_of_lt_of_le (by positivity) h1
  have hq : (0 : ℚ) < 2 ^ (k - 52) := by positivity
  apply fl_eq_of k n hk
  · rwa [abs_of_pos hpos]
  · rwa [abs_of_pos hpos]
  · rw [abs_lt]
    constructor
    · have : (n : ℚ) - 1 / 2 < x / 2 ^ (k - 52) := by rwa [lt_div_iff₀ hq]
      linarith
    · have : x / 2 ^ (k - 52) < (n : ℚ) + 1 / 2 := by rwa [div_lt_iff₀ hq]
      linarith

theorem roundHalfEven_tie_up {x : ℚ} (n : Int) (hn : n % 2 = 0) (hx : x = n - 1 / 2) :
    roundHalfEven x = n := by
  have hf : ⌊x⌋ = n - 1 := by
    rw [Int.floor_eq_iff, hx]
    push_cast
    constructor <;> linarith
  unfold roundHalfEven
  rw [hf, hx]
  push_cast
  have h1 : ¬ ((n : ℚ) - 1 / 2 - (n - 1) < 1 / 2) := by norm_num
  have h2 : ¬ ((1 : ℚ) / 2 < n - 1 / 2 - (n - 1)) := by norm_num
  have h3 : ¬ ((n - 1) % 2 = 0) := by omega
  rw [if_neg h1, if_neg h2, if_neg h3]
  ring

theorem fl_eq_of_tie_up {x : ℚ} (k n : Int) (hk : -1022 ≤ k) (h1 : 2 ^ k ≤ x)
    (h2 : x < 2 ^ (k + 1)) (hn : n % 2 = 0) (hx : x = ((n : ℚ) - 1 / 2) * 2 ^ (k - 52)) :
    fl x = n * 2 ^ (k - 52) := by
  have hpos : 0 < x := lt_of_lt_of_le (by positivity) h1
  have hq : (0 : ℚ) < 2 ^ (k - 52) := by positivity
  have hdiv : x / 2 ^ (k - 52) = (n : ℚ) - 1 / 2 := by
    rw [hx, mul_div_assoc, div_self hq.ne', mul_one]
  unfold fl ulp
  rw [binade_eq_of k hk (by rwa [abs_of_pos hpos]) (by rwa [abs_of_pos hpos]),
    roundHalfEven_tie_up n hn hdiv]

theorem roundHalfEven_tie_down {x : ℚ} (n : Int) (hn : n % 2 = 0) (hx : x = n + 1 / 2) :
    roundHalfEven x = n := by
  have hf : ⌊x⌋ = n := by
    rw [Int.floor_eq_iff, hx]
    constructor <;> linarith
  unfold roundHalfEven
  rw [hf, hx]
  have h1 : ¬ ((n : ℚ) + 1 / 2 - n < 1 / 2) := by norm_num
  have h2 : ¬ ((1 : ℚ) / 2 < n + 1 / 2 - n) := by norm_num
  rw [if_neg h1, if_neg h2, if_pos hn]

theorem fl_eq_of_tie_down {x : ℚ} (k n : Int) (hk : -1022 ≤ k) (h1 : 2 ^ k ≤ x)
    (h2 : x < 2 ^ (k + 1)) (hn : n % 2 = 0) (hx : x = ((n : ℚ) + 1 / 2) * 2 ^ (k - 52)) :
    fl x = n * 2 ^ (k - 52) := by
  have hpos : 0 < x := lt_of_lt_of_le (by positivity) h1
  have hq : (0 : ℚ) < 2 ^ (k - 52) := by positivity
  have hdiv : x / 2 ^ (k - 52) = (n : ℚ) + 1 / 2 := by
    rw [hx, mul_div_assoc, div_self hq.ne', mul_one]
  unfold fl ulp
  rw [binade_eq_of k hk (by rwa [abs_of_pos hpos]) (by rwa [abs_of_pos hpos]),
    roundHalfEven_tie_down n hn hdiv]

theorem fl_intCast {n : Int} (h : |(n : ℚ)| < 2 ^ 53) : fl (n : ℚ) = n := by
  apply fl_of_grid n 0 _ (by simp)
  have := binade_le_of_lt (x := (n : ℚ)) 52 (by norm_num) (Or.inr (by norm_num))
    (by norm_num; exact h)
  omega

theorem fl_quarter {y : ℚ} (hy : 1 ≤ |y|) : fl (y * 0.25) = fl y * 0.25 := by
  have hy0 : y ≠ 0 := by
    intro h; rw [h] at hy; norm_num at hy
  have hlt := abs_lt_zpow_binade y
  have hk : 0 ≤ binade y := by
    by_contra hneg
    push_neg at hneg
    have : (2 : ℚ) ^ (binade y + 1) ≤ 2 ^ (0 : Int) :=
      zpow_le_zpow_right₀ (by norm_num) (by omega)
    rw [zpow_zero] at this
    linarith
  have hge := zpow_binade_le hy0 (by omega)
  have habs : |y * 0.25| = |y| / 4 := by
    rw [abs_mul, abs_of_pos (by norm_num : (0 : ℚ) < 0.25)]; norm_num; ring
  have e1 : (2 : ℚ) ^ (binade y - 2) = 2 ^ binade y / 4 := by
    rw [zpow_sub₀ (by norm_num)]; norm_num
  have e2 : (2 : ℚ) ^ (binade y - 2 + 1) = 2 ^ (binade y + 1) / 4 := by
    rw [show binade y - 2 + 1 = binade y + 1 - 2 by ring, zpow_sub₀ (by norm_num)]; norm_num
  have hb : binade (y * 0.25) = binade y - 2 := by
    apply binade_eq_of _ (by omega)
    · rw [habs, e1]; linarith
    · rw [habs, e2]; linarith
  have hu : ulp (y * 0.25) = ulp y / 4 := by
    unfold ulp
    rw [hb, show binade y - 2 - 52 = binade y - 52 - 2 by ring, zpow_sub₀ (by norm_num)]
    norm_num
  have hup := ulp_pos y
  unfold fl
  rw [hu]
  have : y * 0.25 / (ulp y / 4) = y / ulp y := by
    field_simp
    ring
  rw [this]
  ring

/-! ## The pixel arithmetic in doubles -/

theorem fl_c299 : fl 0.299 = 5386305154335113 / 18014398509481984 := by
  rw [fl_eq_of_pos (-2) 5386305154335113 (by norm_num) (by norm_num) (by norm_num)
    (by norm_num) (by norm_num)]
  norm_num

theorem fl_c587 : fl 0.587 = 2643612981266481 / 4503599627370496 := by
  rw [fl_eq_of_pos (-1) 5287225962532962 (by norm_num) (by norm_num) (by norm_num)
    (by norm_num) (by norm_num)]
  norm_num

theorem fl_c114 : fl 0.114 = 8214565720323785 / 72057594037927936 := by
  rw [fl_eq_of_pos (-4) 8214565720323785 (by norm_num) (by norm_num) (by norm_num)
    (by norm_num) (by norm_num)]
  norm_num

theorem fl_red : fl (255 * (5386305154335113 / 18014398509481984)) =
    5365264899825991 / 70368744177664 := by
  rw [fl_eq_of_pos 6 5365264899825991 (by norm_num) (by norm_num) (by norm_num)
    (by norm_num) (by norm_num)]
  norm_num

theorem fl_green : fl (255 * (2643612981266481 / 4503599627370496)) =
    2633286368058409 / 17592186044416 := by
  rw [fl_eq_of_pos 7 5266572736116818 (by norm_num) (by norm_num) (by norm_num)
    (by norm_num) (by norm_num)]
  norm_num

theorem fl_blue : fl (255 * (8214565720323785 / 72057594037927936)) =
    4091238786489385 / 140737488355328 := by
  rw [fl_eq_of_pos 4 8182477572978770 (by norm_num) (by norm_num) (by norm_num)
    (by norm_num) (by norm_num)]
  norm_num

theorem fl_red_green : fl (5365264899825991 / 70368744177664 +
    2633286368058409 / 17592186044416) = 3974602593014907 / 17592186044416 := by
  rw [fl_eq_of_tie_up 7 7949205186029814 (by norm_num) (by norm_num) (by norm_num)
    (by decide) (by norm_num)]
  norm_num

theorem fl_white : fl (3974602593014907 / 17592186044416 +
    4091238786489385 / 140737488355328) = 255 := by
  rw [fl_eq_of_pos 7 8972014882652160 (by norm_num) (by norm_num) (by norm_num)
    (by norm_num) (by norm_num)]
  norm_num

theorem fl_err_small {x : ℚ} (h0 : 0 ≤ x) (h : x < 256) :
    fl x - x ≤ 1 / 70368744177664 ∧ x - fl x ≤ 1 / 70368744177664 := by
  have := fl_err_of_lt (x := x) 7 (by norm_num) (Or.inr (by norm_num))
    (by rw [abs_of_nonneg h0]; norm_num; exact h)
  rw [abs_le] at this
  norm_num at this
  constructor <;> linarith

theorem brightness_parts {r g b : Nat} (hr : r ≤ 255) (hg : g ≤ 255) (hb : b ≤ 255) :
    0 ≤ brightness r g b ∧ brightness r g b ≤ 255 ∧
    |brightness r g b - (0.299 * r + 0.587 * g + 0.114 * b)| ≤ 1 / 2 ^ 43 := by
  have hr1 : (r : ℚ) ≤ 255 := by exact_mod_cast hr
  have hg1 : (g : ℚ) ≤ 255 := by exact_mod_cast hg
  have hb1 : (b : ℚ) ≤ 255 := by exact_mod_cast hb
  have hr0 : (0 : ℚ) ≤ r := Nat.cast_nonneg r
  have hg0 : (0 : ℚ) ≤ g := Nat.cast_nonneg g
  have hb0 : (0 : ℚ) ≤ b := Nat.cast_nonneg b
  unfold brightness
  rw [fl_c299, fl_c587, fl_c114]
  have x1 : (0 : ℚ) ≤ r * (5386305154335113 / 18014398509481984) := by positivity
  have x2 : (0 : ℚ) ≤ g * (2643612981266481 / 4503599627370496) := by positivity
  have x3 : (0 : ℚ) ≤ b * (8214565720323785 / 72057594037927936) := by positivity
  have p1 := fl_nonneg x1
  have p2 := fl_nonneg x2
  have p3 := fl_nonneg x3
  have q1 : fl (r * (5386305154335113 / 18014398509481984)) ≤
      5365264899825991 / 70368744177664 := by
    rw [← fl_red]
    exact fl_mono_nonneg x1 (by linarith)
  have q2 : fl (g * (2643612981266481 / 4503599627370496)) ≤
      2633286368058409 / 17592186044416 := by
    rw [← fl_green]
    exact fl_mono_nonneg x2 (by linarith)
  have q3 : fl (b * (8214565720323785 / 72057594037927936)) ≤
      4091238786489385 / 140737488355328 := by
    rw [← fl_blue]
    exact fl_mono_nonneg x3 (by linarith)
  have s0 := fl_nonneg (add_nonneg p1 p2)
  have s1 : fl (fl (r * (5386305154335113 / 18014398509481984)) +
      fl (g * (2643612981266481 / 4503599627370496))) ≤
      3974602593014907 / 17592186044416 := by
    rw [← fl_red_green]
    exact fl_mono_nonneg (add_nonneg p1 p2) (by linarith)
  have e1 := fl_err_small x1 (by linarith)
  have e2 := fl_err_small x2 (by linarith)
  have e3 := fl_err_small x3 (by linarith)
  have e4 := fl_err_small (add_nonneg p1 p2) (by linarith)
  have e5 := fl_err_small (add_nonneg s0 p3) (by linarith)
  refine ⟨fl_nonneg (add_nonneg s0 p3), ?_, ?_⟩
  · rw [← fl_white]
    exact fl_mono_nonneg (add_nonneg s0 p3) (by linarith)
  · rw [abs_le]
    norm_num
    constructor <;> linarith [e1.1, e1.2, e2.1, e2.2, e3.1, e3.2, e4.1, e4.2, e5.1, e5.2]

theorem brightness_red : brightness 255 0 0 = 5365264899825991 / 70368744177664 := by
  unfold brightness
  simp only [zero_mul, fl_zero, add_zero, fl_idem]
  rw [fl_c299, fl_red]

theorem brightness_green : brightness 0 255 0 = 2633286368058409 / 17592186044416 := by
  unfold brightness
  simp only [zero_mul, fl_zero, add_zero, zero_add, fl_idem]
  rw [fl_c587, fl_green]

theorem brightness_white : brightness 255 255 255 = 255 := by
  unfold brightness
  rw [fl_c299, fl_c587, fl_c114, fl_red, fl_green, fl_blue, fl_red_green, fl_white]

theorem fl_149685 : fl 149.685 = 2633286368058409 / 17592186044416 := by
  rw [fl_eq_of_pos 7 5266572736116818 (by norm_num) (by norm_num) (by norm_num)
    (by norm_num) (by norm_num)]
  norm_num

theorem fl_76245 : fl 76.245 = 5365264899825992 / 70368744177664 := by
  rw [fl_eq_of_pos 6 5365264899825992 (by norm_num) (by norm_num) (by norm_num)
    (by norm_num) (by norm_num)]
  norm_num

theorem fl_c299_c587 : fl (5386305154335113 / 18014398509481984 +
    2643612981266481 / 4503599627370496) = 3990189269850259 / 4503599627370496 := by
  rw [fl_eq_of_tie_down (-1) 7980378539700518 (by norm_num) (by norm_num) (by norm_num)
    (by decide) (by norm_num)]
  norm_num

theorem fl_grey_one : fl (3990189269850259 / 4503599627370496 +
    8214565720323785 / 72057594037927936) = 9007199254740991 / 9007199254740992 := by
  rw [fl_eq_of_pos (-1) 9007199254740991 (by norm_num) (by norm_num) (by norm_num)
    (by norm_num) (by norm_num)]
  norm_num

theorem brightness_grey_one : brightness 1 1 1 = 9007199254740991 / 9007199254740992 := by
  unfold brightness
  simp only [one_mul, fl_idem]
  rw [fl_c299, fl_c587, fl_c114, fl_c299_c587, fl_grey_one]

theorem green_grey_one :
    greenIntensity (9007199254740991 / 9007199254740992) = 51 := by
  unfold greenIntensity
  have : fl (9007199254740991 / 9007199254740992 + 50) = 51 := by
    rw [fl_eq_of_pos 5 7177611906121728 (by norm_num) (by norm_num) (by norm_num)
      (by norm_num) (by norm_num)]
    norm_num
  rw [this]
  norm_num

theorem alpha_parts {b : ℚ} (h0 : 0 ≤ b) (h255 : b ≤ 255) :
    0 ≤ alpha b ∧ alpha b ≤ 1 ∧ |alpha b - min 1 (b / 200)| ≤ 1 / 2 ^ 53 := by
  have hx : 0 ≤ b / 200 := by positivity
  refine ⟨le_min (by norm_num) (fl_nonneg hx), min_le_left _ _, ?_⟩
  have herr := fl_err_of_lt (x := b / 200) 0 (by norm_num) (Or.inr le_rfl)
    (by rw [abs_of_nonneg hx]; norm_num; linarith)
  have hm := abs_min_sub_min_le_max 1 (fl (b / 200)) 1 (b / 200)
  unfold alpha
  norm_num at herr hm ⊢
  linarith

theorem green_parts {b : ℚ} (h0 : 0 ≤ b) (h255 : b ≤ 255) :
    50 ≤ greenIntensity b ∧ greenIntensity b ≤ 255 ∧
    |greenIntensity b - min 255 (b + 50)| ≤ 1 / 2 ^ 45 ∧
    ⌊min 255 (b + 50)⌋ ≤ ⌊greenIntensity b⌋ ∧
    ⌊greenIntensity b⌋ ≤ ⌊min 255 (b + 50)⌋ + 1 ∧
    fl (greenIntensity b * 0.25) = greenIntensity b * 0.25 := by
  have hx : 0 ≤ b + 50 := by linarith
  have hbin : binade (b + 50) ≤ 8 :=
    binade_le_of_lt 8 (by norm_num) (Or.inr (by norm_num))
      (by rw [abs_of_nonneg hx]; norm_num; linarith)
  have hgrid : ∀ n : Int, (n : ℚ) ≤ b + 50 → (n : ℚ) ≤ fl (b + 50) := by
    intro n hn
    have := grid_le_fl (x := b + 50) n 0 (by omega) (by simpa using hn)
    simpa using this
  have h50 : (50 : ℚ) ≤ fl (b + 50) := by
    have := hgrid 50 (by push_cast; linarith)
    exact_mod_cast this
  have herr := fl_err_of_lt (x := b + 50) 8 (by norm_num) (Or.inr (by norm_num))
    (by rw [abs_of_nonneg hx]; norm_num; linarith)
  have hm := abs_min_sub_min_le_max 255 (fl (b + 50)) 255 (b + 50)
  have herr' : |greenIntensity b - min 255 (b + 50)| ≤ 1 / 2 ^ 45 := by
    unfold greenIntensity
    norm_num at herr hm ⊢
    linarith
  have hlo : (50 : ℚ) ≤ greenIntensity b := le_min (by norm_num) h50
  refine ⟨hlo, min_le_left _ _, herr', ?_, ?_, ?_⟩
  · apply Int.le_floor.mpr
    have hn : ((⌊min 255 (b + 50)⌋ : Int) : ℚ) ≤ min 255 (b + 50) := Int.floor_le _
    exact le_min (hn.trans (min_le_left _ _)) (hgrid _ (hn.trans (min_le_right _ _)))
  · have h1 : ((⌊greenIntensity b⌋ : Int) : ℚ) ≤ greenIntensity b := Int.floor_le _
    have h2 : min 255 (b + 50) < ⌊min 255 (b + 50)⌋ + 1 := Int.lt_floor_add_one _
    rw [abs_le] at herr'
    have h3 : ((⌊greenIntensity b⌋ : Int) : ℚ) < ((⌊min 255 (b + 50)⌋ + 2 : Int) : ℚ) := by
      push_cast
      have : (1 : ℚ) / 2 ^ 45 < 1 := by norm_num
      linarith [herr'.2]
    have h4 : ⌊greenIntensity b⌋ < ⌊min 255 (b + 50)⌋ + 2 := by exact_mod_cast h3
    omega
  · unfold greenIntensity
    rcases le_total 255 (fl (b + 50)) with hc | hc
    · rw [min_eq_left hc]
      apply fl_of_grid 255 (-2) _ (by norm_num)
      have := binade_le_of_lt (x := (255 : ℚ) * 0.25) 5 (by norm_num) (Or.inr (by norm_num))
        (by norm_num [abs_of_pos])
      omega
    · rw [min_eq_right hc, fl_quarter (by rw [abs_of_nonneg (by linarith)]; linarith), fl_idem]

/-! ## Lifecycle lemmas -/

theorem stopCamera_eq (s : State) : stopCamera s = .ok (stopped s) := by
  obtain ⟨video, canvas, ctx, stream, animationId, charSize, startBtn, stopBtn, ve, ce, so,
    tl, cw, ch, bm, pending, lh⟩ := s
  cases video <;> cases canvas <;> cases ctx <;> cases stream <;> cases startBtn <;>
    cases stopBtn <;> cases h : truthy animationId <;>
    simp [stopCamera, stopped, h, cancelAnimationFrame, stopTracks, setSrcObject, fillBlack,
      bind, Except.bind, pure, Except.pure]

theorem truthy_stopped (s : State) : truthy (stopped s).animationId = false := by
  cases ha : s.animationId with
  | none => simp [stopped, truthy, ha]
  | some k =>
    by_cases hk : k = 0
    · simp [stopped, truthy, ha, hk]
    · simp [stopped, truthy, ha, hk]

theorem stopped_idem (s : State) : stopped (stopped s) = stopped s := by
  have h := truthy_stopped s
  have e : stopped (stopped s) =
      { stopped s with
        animationId := if truthy (stopped s).animationId then none else (stopped s).animationId
        pending := if truthy (stopped s).animationId then
            (stopped s).pending.filter (fun h => h != (stopped s).animationId.getD 0)
          else (stopped s).pending
        stream := .null
        tracksLive := if (stopped s).stream = .object then false else (stopped s).tracksLive
        srcObject := if (stopped s).video = .object then .null else (stopped s).srcObject
        bitmap := if (stopped s).ctx = .object ∧ (stopped s).canvas = .object then .drawn []
          else (stopped s).bitmap
        startBtn := if (stopped s).startBtn.isSome then some false else (stopped s).startBtn
        stopBtn := if (stopped s).stopBtn.isSome then some true else (stopped s).stopBtn } := rfl
  rw [e, h]
  have hstream : (stopped s).stream = .null := rfl
  have hvideo : (stopped s).video = s.video := rfl
  have hctx : (stopped s).ctx = s.ctx := rfl
  have hcanvas : (stopped s).canvas = s.canvas := rfl
  have hsrc : (if (stopped s).video = Ref.object then Ref.null else (stopped s).srcObject)
      = (stopped s).srcObject := by
    rw [hvideo]
    by_cases hv : s.video = .object <;> simp [stopped, hv]
  have hbm : (if (stopped s).ctx = Ref.object ∧ (stopped s).canvas = Ref.object
      then Bitmap.drawn [] else (stopped s).bitmap) = (stopped s).bitmap := by
    rw [hctx, hcanvas]
    by_cases hc : s.ctx = .object ∧ s.canvas = .object <;> simp [stopped, hc]
  have hsb : (if (stopped s).startBtn.isSome then some false else (stopped s).startBtn)
      = (stopped s).startBtn := by
    cases hb : s.startBtn <;> simp [stopped, hb]
  have hpb : (if (stopped s).stopBtn.isSome then some true else (stopped s).stopBtn)
      = (stopped s).stopBtn := by
    cases hb : s.stopBtn <;> simp [stopped, hb]
  rw [hsrc, hbm, hsb, hpb, hstream]
  simp only [Bool.false_eq_true, if_false]
  generalize stopped s = t at hstream
  cases t
  simp only at hstream
  subst hstream
  rfl

theorem inv_of_pending_nil {s : State} (hp : s.pending = []) (ha : s.animationId ≠ some 0) :
    Inv s := by
  refine ⟨⟨by simp [hp], ?_⟩, ?_, ha⟩ <;> simp [hp]

theorem inv_scheduleNext {s : State} (hp : s.pending = []) : Inv (scheduleNext s) := by
  refine ⟨⟨?_, ?_⟩, ?_, ?_⟩
  · simp [scheduleNext, requestAnimationFrame, hp]
  · intro h hh
    simp [scheduleNext, requestAnimationFrame, hp] at hh
    subst hh
    simp [scheduleNext, requestAnimationFrame]
  · intro h hh
    simp [scheduleNext, requestAnimationFrame, hp] at hh
    subst hh
    simp [scheduleNext, requestAnimationFrame]
  · simp [scheduleNext, requestAnimationFrame]

theorem renderMatrix_cases {fuel : Nat} {f : Frame} {s t : State}
    (h : renderMatrix fuel f s = some t) :
    t = s ∨ t = scheduleNext s ∨ ∃ cells, t = scheduleNext { s with bitmap := .drawn cells } := by
  unfold renderMatrix at h
  split_ifs at h with h1 h2 h3
  · exact Or.inl (Option.some.inj h).symm
  · exact Or.inr (Or.inl (Option.some.inj h).symm)
  · exact Or.inr (Or.inl (Option.some.inj h).symm)
  · cases hl : sampleLoop s.canvasWidth s.canvasHeight s.charSize f.data fuel with
    | none => simp [hl] at h
    | some cells =>
      simp only [hl, Option.some.injEq] at h
      exact Or.inr (Or.inr ⟨cells, h.symm⟩)

theorem inv_renderMatrix {fuel : Nat} {f : Frame} {s t : State}
    (hp : s.pending = []) (ha : s.animationId ≠ some 0)
    (h : renderMatrix fuel f s = some t) : Inv t := by
  rcases renderMatrix_cases h with rfl | rfl | ⟨cells, rfl⟩
  · exact inv_of_pending_nil hp ha
  · exact inv_scheduleNext hp
  · exact inv_scheduleNext hp

theorem renderMatrix_keeps {fuel : Nat} {f : Frame} {s t : State}
    (h : renderMatrix fuel f s = some t) :
    t.charSize = s.charSize ∧ t.canvasWidth = s.canvasWidth ∧
      t.canvasHeight = s.canvasHeight := by
  rcases renderMatrix_cases h with rfl | rfl | ⟨cells, rfl⟩ <;> exact ⟨rfl, rfl, rfl⟩

theorem renderMatrix_total (f : Frame) (s : State) (hs : 0 < s.charSize) (extra : Nat) :
    ∃ t, renderMatrix (s.canvasWidth + s.canvasHeight + 1 + extra) f s = some t := by
  unfold renderMatrix
  split_ifs
  · exact ⟨_, rfl⟩
  · exact ⟨_, rfl⟩
  · exact ⟨_, rfl⟩
  · rw [sampleLoop_eq _ _ _ _ hs extra]
    exact ⟨_, rfl⟩

theorem pending_nil_of_falsy {s : State} (hs : SingleLoop s)
    (ht : truthy s.animationId = false) : s.pending = [] := by
  apply List.eq_nil_iff_forall_not_mem.mpr
  intro h hh
  obtain ⟨ha, h0⟩ := hs.2 h hh
  simp [truthy, ha, h0] at ht

theorem pending_cancel {s : State} (hs : SingleLoop s) :
    (cancelAnimationFrame (s.animationId.getD 0) s).pending = [] := by
  apply List.eq_nil_iff_forall_not_mem.mpr
  intro h hh
  simp only [cancelAnimationFrame, List.mem_filter] at hh
  obtain ⟨ha, _⟩ := hs.2 h hh.1
  simp [ha] at hh

theorem pending_after_cancel {s : State} (hs : SingleLoop s) :
    (if truthy s.animationId then cancelAnimationFrame (s.animationId.getD 0) s else s).pending
      = [] := by
  cases ht : truthy s.animationId
  · simpa using pending_nil_of_falsy hs ht
  · simpa using pending_cancel hs

theorem animationId_after_cancel (s : State) :
    (if truthy s.animationId then cancelAnimationFrame (s.animationId.getD 0) s else s).animationId
      = s.animationId := by
  cases truthy s.animationId <;> rfl

theorem inv_startRendering {fuel : Nat} {f : Frame} {s t : State} (hs : Inv s)
    (h : startRendering fuel f s = some t) : Inv t := by
  unfold startRendering at h
  refine inv_renderMatrix (pending_after_cancel hs.1) ?_ h
  rw [animationId_after_cancel]
  exact hs.2.2

theorem inv_stopped {s : State} (hs : Inv s) :
    (stopped s).pending = [] ∧ (stopped s).animationId = none := by
  cases ht : truthy s.animationId
  · have hp := pending_nil_of_falsy hs.1 ht
    have ha : s.animationId = none := by
      cases hk : s.animationId with
      | none => rfl
      | some k =>
        have hk0 : k ≠ 0 := fun h0 => hs.2.2 (by rw [hk, h0])
        simp [truthy, hk, hk0] at ht
    simp [stopped, ht, hp, ha]
  · have hp := pending_cancel hs.1
    simp only [cancelAnimationFrame] at hp
    simp [stopped, ht, hp]

theorem inv_step {s t : State} (hs : Inv s) (h : Step s t) : Inv t := by
  cases h with
  | startCameraGranted =>
    have e : (startCameraGranted s).pending = s.pending ∧
        (startCameraGranted s).animationId = s.animationId ∧
        (startCameraGranted s).lastHandle = s.lastHandle := by
      unfold startCameraGranted setSrcObject
      cases s.canvasElement <;> cases s.videoElement <;> exact ⟨rfl, rfl, rfl⟩
    unfold Inv SingleLoop
    rw [e.1, e.2.1, e.2.2]
    exact hs
  | startCameraPlaying =>
    have e : (startCameraPlaying s).pending = s.pending ∧
        (startCameraPlaying s).animationId = s.animationId ∧
        (startCameraPlaying s).lastHandle = s.lastHandle := by
      unfold startCameraPlaying
      cases s.startBtn <;> cases s.stopBtn <;> exact ⟨rfl, rfl, rfl⟩
    unfold Inv SingleLoop
    rw [e.1, e.2.1, e.2.2]
    exact hs
  | setupCanvas fuel f _ _ hv hc hx h =>
    unfold setupCanvas at h
    split_ifs at h
    · exact inv_startRendering (s := { s with
        canvasWidth := f.videoWidth, canvasHeight := f.videoHeight, bitmap := .blank,
        charSize := charSizeFor f.videoWidth }) hs h
    · rw [← Option.some.inj h]
      exact hs
  | startRendering fuel f _ _ h => exact inv_startRendering hs h
  | tick handle fuel f _ _ h =>
    unfold tick at h
    split_ifs at h with hmem
    have hlen := hs.1.1
    have hp : s.pending = [handle] := by
      cases hps : s.pending with
      | nil => rw [hps] at hmem; exact absurd hmem (List.not_mem_nil _)
      | cons a l =>
        rw [hps] at hmem hlen
        cases l with
        | nil => simp at hmem; rw [hmem]
        | cons b l => simp at hlen
    refine inv_renderMatrix (s := { s with pending := s.pending.erase handle }) ?_ hs.2.2 h
    simp [hp]
  | stopCamera _ _ h =>
    rw [stopCamera_eq] at h
    have ht : t = stopped s := (Except.ok.inj h).symm
    subst ht
    obtain ⟨hp, ha⟩ := inv_stopped hs
    exact inv_of_pending_nil hp (by rw [ha]; exact Option.noConfusion)

theorem inv_initial {s : State} (h : Initial s) : Inv s := by
  obtain ⟨_, _, _, _, ha, _, _, _, _, hp⟩ := h
  exact inv_of_pending_nil hp (by rw [ha]; exact Option.noConfusion)

theorem inv_reachable {s : State} (h : Reachable s) : Inv s := by
  induction h with
  | init s h => exact inv_initial h
  | step s t _ h ih => exact inv_step ih h

theorem renderMatrix_pending {fuel : Nat} {f : Frame} {s t : State}
    (hp : s.pending = []) (h : renderMatrix fuel f s = some t) :
    ∀ k ∈ t.pending, k = s.lastHandle + 1 := by
  rcases renderMatrix_cases h with rfl | rfl | ⟨cells, rfl⟩
  · simp [hp]
  · simp [scheduleNext, requestAnimationFrame, hp]
  · simp [scheduleNext, requestAnimationFrame, hp]

theorem initial_initialState : Initial initialState :=
  ⟨rfl, rfl, rfl, rfl, rfl, rfl, rfl, rfl, rfl, rfl⟩

theorem setupCanvas_running :
    setupCanvas 0 ⟨640, 480, false, []⟩ (startCameraGranted initialState) = some runningState := by
  have h8 : charSizeFor 640 = 8 := by rw [charSizeFor_eq]; rfl
  simp [setupCanvas, startRendering, renderMatrix, scheduleNext, requestAnimationFrame,
    startCameraGranted, setSrcObject, initialState, truthy, runningState, h8]

theorem reachable_runningState : Reachable runningState :=
  Reachable.step _ _
    (Reachable.step _ _ (Reachable.init _ initial_initialState)
      (Step.startCameraGranted initialState))
    (Step.setupCanvas 0 ⟨640, 480, false, []⟩ _ _ rfl rfl rfl setupCanvas_running)

/-! ## Theorems -/

/-- C1: for brightness values `b1 < b2` in `[0,255]` the alphabet index
`floor((b/255)*(K-1))` chosen for `b1` is at most the one chosen for `b2`, and
these indices are the positions `getCharFromBrightness` reads. -/
theorem glyph_monotone (b1 b2 : ℚ) (h0 : 0 ≤ b1) (h : b1 < b2) (h255 : b2 ≤ 255) :
    glyphIndex b1 ≤ glyphIndex b2 ∧
    glyphIndex b1 = ⌊(b1 / 255) * ((matrixChars.length : ℚ) - 1)⌋ ∧
    glyphIndex b2 = ⌊(b2 / 255) * ((matrixChars.length : ℚ) - 1)⌋ ∧
    getCharFromBrightness b1 = matrixChars[(glyphIndex b1).toNat]? ∧
    getCharFromBrightness b2 = matrixChars[(glyphIndex b2).toNat]? ∧
    0 ≤ glyphIndex b1 ∧ glyphIndex b2 ≤ (matrixChars.length : Int) - 1 := by
  refine ⟨glyphIndex_mono h.le, rfl, rfl, ?_, ?_, (glyphIndex_nonneg_iff b1).mpr h0, ?_⟩
  · exact charAt_eq_of_nonneg ((glyphIndex_nonneg_iff b1).mpr h0)
  · exact charAt_eq_of_nonneg ((glyphIndex_nonneg_iff b2).mpr (h0.trans h.le))
  · rw [matrixChars_length]
    exact glyphIndex_le_of_le_255 h255

/-- C1 at the brightness values 10 and 200. -/
theorem glyph_monotone_witness :
    ((0 : ℚ) ≤ 10 ∧ (10 : ℚ) < 200 ∧ (200 : ℚ) ≤ 255) ∧
    glyphIndex 10 ≤ glyphIndex 200 ∧
    glyphIndex 10 = ⌊((10 : ℚ) / 255) * ((matrixChars.length : ℚ) - 1)⌋ ∧
    glyphIndex 200 = ⌊((200 : ℚ) / 255) * ((matrixChars.length : ℚ) - 1)⌋ ∧
    getCharFromBrightness 10 = matrixChars[(glyphIndex 10).toNat]? ∧
    getCharFromBrightness 200 = matrixChars[(glyphIndex 200).toNat]? ∧
    0 ≤ glyphIndex 10 ∧ glyphIndex 200 ≤ (matrixChars.length : Int) - 1 :=
  ⟨⟨by norm_num, by norm_num, by norm_num⟩,
    glyph_monotone 10 200 (by norm_num) (by norm_num) (by norm_num)⟩

/-- C2: brightness 0 selects the first character of the alphabet, brightness
255 the last one, and every brightness in `[0,255]` selects an index in
`[0, K-1]`. -/
theorem glyph_boundary (b : ℚ) (h0 : 0 ≤ b) (h255 : b ≤ 255) :
    getCharFromBrightness 0 = matrixChars.head? ∧
    matrixChars.head? = some 'ア' ∧
    getCharFromBrightness 255 = matrixChars.getLast? ∧
    matrixChars.getLast? = some '9' ∧
    glyphIndex 0 = 0 ∧ glyphIndex 255 = (matrixChars.length : Int) - 1 ∧
    0 ≤ glyphIndex b ∧ glyphIndex b ≤ (matrixChars.length : Int) - 1 := by
  have hlast : matrixChars.getLast? = some '9' := rfl
  have hhead : matrixChars.head? = some 'ア' := rfl
  refine ⟨?_, hhead, ?_, hlast, glyphIndex_zero, ?_, (glyphIndex_nonneg_iff b).mpr h0, ?_⟩
  · rw [hhead]
    simp [getCharFromBrightness, glyphIndex_zero, charAt, matrixChars_head]
  · rw [hlast]
    simp [getCharFromBrightness, glyphIndex_255, charAt, matrixChars_last]
  · rw [glyphIndex_255, matrixChars_length]; rfl
  · rw [matrixChars_length]
    exact glyphIndex_le_of_le_255 h255

/-- C2 at brightness 100. -/
theorem glyph_boundary_witness :
    ((0 : ℚ) ≤ 100 ∧ (100 : ℚ) ≤ 255) ∧
    getCharFromBrightness 0 = matrixChars.head? ∧
    matrixChars.head? = some 'ア' ∧
    getCharFromBrightness 255 = matrixChars.getLast? ∧
    matrixChars.getLast? = some '9' ∧
    glyphIndex 0 = 0 ∧ glyphIndex 255 = (matrixChars.length : Int) - 1 ∧
    0 ≤ glyphIndex 100 ∧ glyphIndex 100 ≤ (matrixChars.length : Int) - 1 :=
  ⟨⟨by norm_num, by norm_num⟩, glyph_boundary 100 (by norm_num) (by norm_num)⟩

/-- C4 (as stated) fails: brightness `-1` gives lookup index `-1`, which is not
clamped to `[0, K-1]`, and `getCharFromBrightness` returns `undefined`. -/
theorem glyph_not_clamped :
    glyphIndex (-1) = -1 ∧ getCharFromBrightness (-1) = none := by
  have h : glyphIndex (-1) = -1 := by
    rw [glyphIndex_eq, Int.floor_eq_iff]
    norm_num
  refine ⟨h, ?_⟩
  simp [getCharFromBrightness, h, charAt]

/-- C4 (amended): no clamping is applied; `getCharFromBrightness` returns a
character, which is then the alphabet entry at index `floor((b/255)*(K-1))` in
`[0, K-1]`, exactly when `0 ≤ b < 34170/133` (so for every brightness in
`[0,255]`), and returns `undefined` for every other brightness. -/
theorem glyph_defined_iff (b : ℚ) :
    ((getCharFromBrightness b).isSome ↔ (0 ≤ b ∧ b < 34170 / 133)) ∧
    ((0 ≤ b ∧ b ≤ 255) → (getCharFromBrightness b).isSome) ∧
    (∀ c, getCharFromBrightness b = some c →
      c ∈ matrixChars ∧ 0 ≤ glyphIndex b ∧ glyphIndex b ≤ (matrixChars.length : Int) - 1) ∧
    (¬ (0 ≤ b ∧ b < 34170 / 133) → getCharFromBrightness b = none) := by
  have hsome : ∀ i : Int, (charAt matrixChars i).isSome ↔ (0 ≤ i ∧ i < 134) := by
    intro i
    unfold charAt
    by_cases hneg : i < 0
    · simp only [hneg, if_true, Option.isSome_none, Bool.false_eq_true, false_iff]
      omega
    · simp only [hneg, if_false]
      rw [Option.isSome_iff_ne_none, ne_eq, List.getElem?_eq_none_iff, matrixChars_length]
      omega
  have key : (getCharFromBrightness b).isSome ↔ (0 ≤ b ∧ b < 34170 / 133) := by
    rw [← glyphIndex_nonneg_iff, ← glyphIndex_lt_iff]
    exact hsome (glyphIndex b)
  refine ⟨key, ?_, ?_, ?_⟩
  · rintro ⟨h0, h255⟩
    exact key.mpr ⟨h0, by linarith⟩
  · intro c hc
    have hs : (getCharFromBrightness b).isSome := by simp [hc]
    have hi := (hsome (glyphIndex b)).mp hs
    refine ⟨?_, hi.1, ?_⟩
    · unfold getCharFromBrightness at hc
      rw [charAt_eq_of_nonneg hi.1] at hc
      exact List.getElem?_mem hc
    · rw [matrixChars_length]; omega
  · intro hn
    rw [← key] at hn
    simpa using hn

/-- C3: for a `W×H` buffer whose pixel data has length `4*W*H` and a step
`s > 0`, the sampling loop ends and draws exactly `ceil(W/s) * ceil(H/s)`
cells: every position `(x, y)` with `x`, `y` multiples of `s`, `x < W`,
`y < H` is visited exactly once, and the bounds check skips no position inside
the buffer. -/
theorem sampling_coverage (W H s : Nat) (data : List Nat) (extra : Nat)
    (hs : 0 < s) (hlen : data.length = 4 * W * H) :
    ∃ cells, sampleLoop W H s data (W + H + 1 + extra) = some cells ∧
      cells.length = ⌈(W : ℚ) / s⌉₊ * ⌈(H : ℚ) / s⌉₊ ∧
      (cells.map (fun c => (c.x, c.y))).Nodup ∧
      (∀ x y, (x, y) ∈ cells.map (fun c => (c.x, c.y)) ↔
        (s ∣ x ∧ s ∣ y ∧ x < W ∧ y < H)) ∧
      (∀ x y, x < W → y < H → (sampleCell W s data x y).isSome) := by
  refine ⟨_, sampleLoop_full W H s data hs hlen extra, ?_, ?_, ?_, ?_⟩
  · have h := congrArg List.length (positions_eq W H s data)
    rw [List.length_map] at h
    rw [h, List.length_map, List.length_product, length_gridPoints, length_gridPoints,
      ceil_div_eq hs, ceil_div_eq hs, Nat.mul_comm]
  · rw [positions_eq]
    apply List.Nodup.map Prod.swap_injective
    exact List.Nodup.product (nodup_gridPoints hs) (nodup_gridPoints hs)
  · intro x y
    rw [positions_eq]
    simp only [List.mem_map, List.mem_product, Prod.exists, Prod.swap_prod_mk, Prod.mk.injEq]
    constructor
    · rintro ⟨a, b, ⟨ha, hb⟩, rfl, rfl⟩
      have ha' := (mem_gridPoints hs a).mp ha
      have hb' := (mem_gridPoints hs b).mp hb
      exact ⟨hb'.1, ha'.1, hb'.2, ha'.2⟩
    · rintro ⟨hx, hy, hxW, hyH⟩
      exact ⟨y, x, ⟨(mem_gridPoints hs y).mpr ⟨hy, hyH⟩, (mem_gridPoints hs x).mpr ⟨hx, hxW⟩⟩,
        rfl, rfl⟩
  · intro x y hx hy
    rw [sampleCell_eq (index_in_bounds hlen hx hy)]
    rfl

/-- C3 on a black 640×480 buffer with step 8: 80 * 60 = 4800 cells. -/
theorem sampling_coverage_witness :
    (0 < 8 ∧ (List.replicate (4 * 640 * 480) 0).length = 4 * 640 * 480) ∧
    ∃ cells, sampleLoop 640 480 8 (List.replicate (4 * 640 * 480) 0) (640 + 480 + 1 + 0)
        = some cells ∧ cells.length = 80 * 60 ∧ 80 * 60 = 4800 := by
  obtain ⟨cells, h1, h2, _⟩ :=
    sampling_coverage 640 480 8 (List.replicate (4 * 640 * 480) 0) 0 (by decide)
      (List.length_replicate _ _)
  refine ⟨⟨by decide, List.length_replicate _ _⟩, cells, h1, ?_, by decide⟩
  rw [h2, ceil_div_eq (by decide), ceil_div_eq (by decide)]

/-- C10: with the step `s = max(6, floor(W/80))` the inner loop visits
`ceil(W/s)` columns, at most 94 whatever the width `W`, so no row holds more
than 94 glyphs; 94 columns are visited at `W = 559`. -/
theorem columns_bounded (W extra : Nat) (data : List Nat) (y : Nat) :
    (∃ cols, visitedColumns W (charSizeFor W) (W + 1 + extra) = some cols ∧
      cols.length = ⌈(W : ℚ) / (charSizeFor W : ℕ)⌉₊ ∧ cols.length ≤ 94) ∧
    (∃ row, sampleRow W (charSizeFor W) data (W + 1 + extra) y = some row ∧
      row.length ≤ 94) ∧
    charSizeFor W = max 6 (W / 80) ∧
    (visitedColumns 559 (charSizeFor 559) 560).map List.length = some 94 := by
  have hpos := charSizeFor_pos W
  have hvis : ∀ w e, visitedColumns w (charSizeFor w) (w + 1 + e) =
      some (gridPoints w (charSizeFor w)) := by
    intro w e
    unfold visitedColumns
    rw [forLoop_eq w (charSizeFor w) _ (fun x => [x]) (fun _ => rfl) (charSizeFor_pos w) e,
      flatMap_singleton_eq]
  refine ⟨⟨_, hvis W extra, ?_, ?_⟩, ⟨_, sampleRow_eq W _ data y hpos extra, ?_⟩,
    charSizeFor_eq W, ?_⟩
  · rw [length_gridPoints, ceil_div_eq hpos]
  · rw [length_gridPoints]
    exact columns_le W
  · refine le_trans (length_flatMap_toList_le _ _) ?_
    rw [length_gridPoints]
    exact columns_le W
  · rw [show (560 : Nat) = 559 + 1 + 0 from rfl, hvis 559 0]
    simp only [Option.map_some', length_gridPoints, charSizeFor_eq]
    rfl

/-- C7 (as stated) fails: for the pure red pixel `(255,0,0)` the brightness
`renderMatrix` computes is the double `5365264899825991 / 2^46`
(76.24499999999999...), not `0.299*255 = 76.245`. -/
theorem luma_not_exact :
    (∃ c, sampleCell 1 8 [255, 0, 0, 255] 0 0 = some c ∧
      c.brightness = 5365264899825991 / 2 ^ 46 ∧
      c.brightness ≠ 0.299 * 255 + 0.587 * 0 + 0.114 * 0) ∧
    brightness 255 0 0 ≠ 76.245 := by
  have hred : brightness ((255 : Nat) : ℚ) ((0 : Nat) : ℚ) ((0 : Nat) : ℚ) =
      5365264899825991 / 70368744177664 := by
    push_cast
    exact brightness_red
  have hcell : (cellOf 1 8 [255, 0, 0, 255] 0 0).brightness =
      5365264899825991 / 70368744177664 := hred
  refine ⟨⟨_, sampleCell_eq (by decide), ?_, ?_⟩, ?_⟩
  · rw [hcell]; norm_num
  · rw [hcell]; norm_num
  · rw [brightness_red]; norm_num

/-- C7 (amended): a sampled pixel with channels `R`, `G`, `B` in `0..255` is
drawn with the brightness obtained by evaluating `R*0.299 + G*0.587 + B*0.114`
in doubles; it is within `2^-43` of the exact value and lies in `[0,255]`.
Red gives the double just below the one nearest 76.245, green the double
nearest 149.685, white exactly 255. -/
theorem luma_rounded (R G B : Nat) (W s x y : Nat) (data : List Nat)
    (hR : R ≤ 255) (hG : G ≤ 255) (hB : B ≤ 255)
    (hr : data[(y * W + x) * 4]? = some R)
    (hg : data[(y * W + x) * 4 + 1]? = some G)
    (hb : data[(y * W + x) * 4 + 2]? = some B) :
    (∃ c, sampleCell W s data x y = some c ∧ c.x = x ∧ c.y = y ∧
      |c.brightness - (0.299 * R + 0.587 * G + 0.114 * B)| ≤ 1 / 2 ^ 43 ∧
      0 ≤ c.brightness ∧ c.brightness ≤ 255) ∧
    brightness 255 0 0 = fl 76.245 - 1 / 2 ^ 46 ∧
    |brightness 255 0 0 - 76.245| ≤ 1 / 2 ^ 46 ∧
    brightness 0 255 0 = fl 149.685 ∧
    |brightness 0 255 0 - 149.685| ≤ 1 / 2 ^ 46 ∧
    brightness 255 255 255 = 255 := by
  have hlt : (y * W + x) * 4 + 2 < data.length := by
    by_contra hn
    rw [List.getElem?_eq_none_iff.mpr (by omega)] at hb
    exact Option.noConfusion hb
  have e0 : data.getD ((y * W + x) * 4) 0 = R := by
    rw [List.getD_eq_getElem?_getD, hr]; rfl
  have e1 : data.getD ((y * W + x) * 4 + 1) 0 = G := by
    rw [List.getD_eq_getElem?_getD, hg]; rfl
  have e2 : data.getD ((y * W + x) * 4 + 2) 0 = B := by
    rw [List.getD_eq_getElem?_getD, hb]; rfl
  have hbr : (cellOf W s data x y).brightness = brightness R G B := by
    simp only [cellOf, cellAt, e0, e1, e2]
  obtain ⟨h0, h255, herr⟩ := brightness_parts hR hG hB
  refine ⟨⟨_, sampleCell_eq hlt, rfl, rfl, ?_, ?_, ?_⟩, ?_, ?_, ?_, ?_, brightness_white⟩
  · rw [hbr]; exact herr
  · rw [hbr]; exact h0
  · rw [hbr]; exact h255
  · rw [brightness_red, fl_76245]; norm_num
  · rw [brightness_red, abs_le]; norm_num
  · rw [brightness_green, fl_149685]
  · rw [brightness_green, abs_le]; norm_num

/-- C7 (amended) on a one-pixel buffer holding pure red. -/
theorem luma_rounded_witness :
    (255 ≤ 255 ∧ 0 ≤ 255 ∧
      [255, 0, 0, 255][(0 * 1 + 0) * 4]? = some 255 ∧
      [255, 0, 0, 255][(0 * 1 + 0) * 4 + 1]? = some 0 ∧
      [255, 0, 0, 255][(0 * 1 + 0) * 4 + 2]? = some 0) ∧
    (∃ c, sampleCell 1 8 [255, 0, 0, 255] 0 0 = some c ∧ c.x = 0 ∧ c.y = 0 ∧
      |c.brightness - (0.299 * (255 : Nat) + 0.587 * (0 : Nat) + 0.114 * (0 : Nat))|
        ≤ 1 / 2 ^ 43 ∧
      0 ≤ c.brightness ∧ c.brightness ≤ 255) ∧
    brightness 255 0 0 = fl 76.245 - 1 / 2 ^ 46 ∧
    |brightness 255 0 0 - 76.245| ≤ 1 / 2 ^ 46 ∧
    brightness 0 255 0 = fl 149.685 ∧
    |brightness 0 255 0 - 149.685| ≤ 1 / 2 ^ 46 ∧
    brightness 255 255 255 = 255 :=
  ⟨⟨by decide, by decide, rfl, rfl, rfl⟩,
    luma_rounded 255 0 0 1 8 0 0 [255, 0, 0, 255] (by decide) (by decide) (by decide)
      rfl rfl rfl⟩

/-- C8 (as stated) fails: the grey pixel `(1,1,1)` is drawn with brightness
`1 - 2^-53`, in `[0,255]`, and green channel 51, whereas
`floor(min(255, b + 50))` is 50 there: the sum `b + 50` rounds up to 51. -/
theorem color_not_exact :
    ∃ c, sampleCell 1 8 [1, 1, 1, 255] 0 0 = some c ∧
      c.brightness = 1 - 1 / 2 ^ 53 ∧ 0 ≤ c.brightness ∧ c.brightness ≤ 255 ∧
      c.fillStyle.g = 51 ∧ ⌊min (255 : ℚ) (c.brightness + 50)⌋ = 50 := by
  have hgrey : brightness ((1 : Nat) : ℚ) ((1 : Nat) : ℚ) ((1 : Nat) : ℚ) =
      9007199254740991 / 9007199254740992 := by
    push_cast
    exact brightness_grey_one
  have hcell : (cellOf 1 8 [1, 1, 1, 255] 0 0).brightness =
      9007199254740991 / 9007199254740992 := hgrey
  have hfill : (cellOf 1 8 [1, 1, 1, 255] 0 0).fillStyle =
      fillStyle (cellOf 1 8 [1, 1, 1, 255] 0 0).brightness := rfl
  refine ⟨_, sampleCell_eq (by decide), ?_, ?_, ?_, ?_, ?_⟩
  · rw [hcell]; norm_num
  · rw [hcell]; norm_num
  · rw [hcell]; norm_num
  · rw [hfill, hcell]
    show ⌊greenIntensity (9007199254740991 / 9007199254740992)⌋ = 51
    rw [green_grey_one]
    exact Int.floor_intCast 51
  · rw [hcell, Int.floor_eq_iff]
    norm_num

/-- C8 (amended): with `a = min(1, b/200)` and `g = min(255, b+50)` evaluated
in doubles, the fill colour for a brightness `b` in `[0,255]` is
`(0, floor(g), floor(g*0.25), a)`; `a` lies in `[0,1]` within `2^-53` of the
exact quotient, `g` lies in `[50,255]` within `2^-45` of the exact sum, and
the green channel is the floor of the exact `min(255, b+50)` or one more.
Every sampled pixel is drawn with this colour of its brightness.  `b = 0`
gives alpha 0, green 50 and colour `(0,50,12,0)`; `b = 200` gives alpha 1 and
green 250. -/
theorem color_derivation_rounded (b : ℚ) (R G B : Nat) (W s x y : Nat) (data : List Nat)
    (h0 : 0 ≤ b) (h255 : b ≤ 255)
    (hR : R ≤ 255) (hG : G ≤ 255) (hB : B ≤ 255)
    (hr : data[(y * W + x) * 4]? = some R)
    (hg : data[(y * W + x) * 4 + 1]? = some G)
    (hb : data[(y * W + x) * 4 + 2]? = some B) :
    ((fillStyle b).r = 0 ∧ (fillStyle b).g = ⌊greenIntensity b⌋ ∧
      (fillStyle b).b = ⌊greenIntensity b * 0.25⌋ ∧ (fillStyle b).a = alpha b) ∧
    (0 ≤ alpha b ∧ alpha b ≤ 1 ∧ |alpha b - min 1 (b / 200)| ≤ 1 / 2 ^ 53) ∧
    (50 ≤ greenIntensity b ∧ greenIntensity b ≤ 255 ∧
      |greenIntensity b - min 255 (b + 50)| ≤ 1 / 2 ^ 45) ∧
    (⌊min 255 (b + 50)⌋ ≤ (fillStyle b).g ∧ (fillStyle b).g ≤ ⌊min 255 (b + 50)⌋ + 1) ∧
    (∃ c, sampleCell W s data x y = some c ∧ c.brightness = brightness R G B ∧
      0 ≤ c.brightness ∧ c.brightness ≤ 255 ∧ c.fillStyle = fillStyle c.brightness) ∧
    alpha 0 = 0 ∧ greenIntensity 0 = 50 ∧
    fillStyle 0 = { r := 0, g := 50, b := 12, a := 0 } ∧
    alpha 200 = 1 ∧ greenIntensity 200 = 250 := by
  have hlt : (y * W + x) * 4 + 2 < data.length := by
    by_contra hn
    rw [List.getElem?_eq_none_iff.mpr (by omega)] at hb
    exact Option.noConfusion hb
  have e0 : data.getD ((y * W + x) * 4) 0 = R := by
    rw [List.getD_eq_getElem?_getD, hr]; rfl
  have e1 : data.getD ((y * W + x) * 4 + 1) 0 = G := by
    rw [List.getD_eq_getElem?_getD, hg]; rfl
  have e2 : data.getD ((y * W + x) * 4 + 2) 0 = B := by
    rw [List.getD_eq_getElem?_getD, hb]; rfl
  have hbr : (cellOf W s data x y).brightness = brightness R G B := by
    simp only [cellOf, cellAt, e0, e1, e2]
  obtain ⟨hb0, hb255, _⟩ := brightness_parts hR hG hB
  obtain ⟨ha0, ha1, haerr⟩ := alpha_parts h0 h255
  obtain ⟨hg50, hg255, hgerr, hfl1, hfl2, hquarter⟩ := green_parts h0 h255
  have hfl50 : fl (50 : ℚ) = 50 := by
    have := fl_intCast (n := 50) (by norm_num)
    exact_mod_cast this
  have hfl250 : fl (250 : ℚ) = 250 := by
    have := fl_intCast (n := 250) (by norm_num)
    exact_mod_cast this
  have hfl1' : fl (1 : ℚ) = 1 := by
    have := fl_intCast (n := 1) (by norm_num)
    exact_mod_cast this
  have hal0 : alpha 0 = 0 := by
    unfold alpha; rw [zero_div, fl_zero]; norm_num
  have hgr0 : greenIntensity 0 = 50 := by
    unfold greenIntensity; rw [zero_add, hfl50]; norm_num
  have hq0 := (green_parts (b := 0) le_rfl (by norm_num)).2.2.2.2.2
  refine ⟨⟨rfl, rfl, ?_, rfl⟩, ⟨ha0, ha1, haerr⟩, ⟨hg50, hg255, hgerr⟩, ⟨hfl1, hfl2⟩,
    ⟨_, sampleCell_eq hlt, hbr, ?_, ?_, rfl⟩, hal0, hgr0, ?_, ?_, ?_⟩
  · show ⌊fl (greenIntensity b * 0.25)⌋ = ⌊greenIntensity b * 0.25⌋
    rw [hquarter]
  · rw [hbr]; exact hb0
  · rw [hbr]; exact hb255
  · have hgf : ⌊greenIntensity 0⌋ = 50 := by rw [hgr0]; exact Int.floor_intCast 50
    have hbf : ⌊fl (greenIntensity 0 * 0.25)⌋ = 12 := by
      rw [hq0, hgr0, Int.floor_eq_iff]; norm_num
    unfold fillStyle
    rw [hgf, hbf, hal0]
  · unfold alpha
    rw [show (200 : ℚ) / 200 = 1 by norm_num, hfl1']; norm_num
  · unfold greenIntensity
    rw [show (200 : ℚ) + 50 = 250 by norm_num, hfl250]; norm_num

/-- C8 (amended) at brightness 100 and a one-pixel buffer holding pure red. -/
theorem color_derivation_rounded_witness :
    ((0 : ℚ) ≤ 100 ∧ (100 : ℚ) ≤ 255 ∧ 255 ≤ 255 ∧ 0 ≤ 255 ∧
      [255, 0, 0, 255][(0 * 1 + 0) * 4]? = some 255 ∧
      [255, 0, 0, 255][(0 * 1 + 0) * 4 + 1]? = some 0 ∧
      [255, 0, 0, 255][(0 * 1 + 0) * 4 + 2]? = some 0) ∧
    ((fillStyle 100).r = 0 ∧ (fillStyle 100).g = ⌊greenIntensity 100⌋ ∧
      (fillStyle 100).b = ⌊greenIntensity 100 * 0.25⌋ ∧ (fillStyle 100).a = alpha 100) ∧
    (0 ≤ alpha 100 ∧ alpha 100 ≤ 1 ∧ |alpha 100 - min 1 ((100 : ℚ) / 200)| ≤ 1 / 2 ^ 53) ∧
    (50 ≤ greenIntensity 100 ∧ greenIntensity 100 ≤ 255 ∧
      |greenIntensity 100 - min 255 ((100 : ℚ) + 50)| ≤ 1 / 2 ^ 45) ∧
    (⌊min 255 ((100 : ℚ) + 50)⌋ ≤ (fillStyle 100).g ∧
      (fillStyle 100).g ≤ ⌊min 255 ((100 : ℚ) + 50)⌋ + 1) ∧
    (∃ c, sampleCell 1 8 [255, 0, 0, 255] 0 0 = some c ∧
      c.brightness = brightness (255 : Nat) (0 : Nat) (0 : Nat) ∧
      0 ≤ c.brightness ∧ c.brightness ≤ 255 ∧ c.fillStyle = fillStyle c.brightness) ∧
    alpha 0 = 0 ∧ greenIntensity 0 = 50 ∧
    fillStyle 0 = { r := 0, g := 50, b := 12, a := 0 } ∧
    alpha 200 = 1 ∧ greenIntensity 200 = 250 :=
  ⟨⟨by norm_num, by norm_num, by decide, by decide, rfl, rfl, rfl⟩,
    color_derivation_rounded 100 255 0 0 1 8 0 0 [255, 0, 0, 255] (by norm_num) (by norm_num)
      (by decide) (by decide) (by decide) rfl rfl rfl⟩

/-- C9: when `setupCanvas` sizes a surface of width `w` it sets the step
`charSize` to `max(6, floor(w/80))`, which is at least 6; the step expression
gives 8 for width 640, 6 for width 80 and 50 for width 4000. -/
theorem step_size_policy (w h : Nat) (ok : Bool) (data : List Nat) (s : State) (extra : Nat)
    (hw : 0 < w) (hh : 0 < h) :
    (∃ t, setupCanvas (w + h + 1 + extra) ⟨w, h, ok, data⟩ s = some t ∧
      t.canvasWidth = w ∧ t.charSize = max 6 (w / 80) ∧ 6 ≤ t.charSize) ∧
    (∀ v : Nat, charSizeFor v = max 6 (v / 80) ∧ 6 ≤ charSizeFor v) ∧
    charSizeFor 640 = 8 ∧ charSizeFor 80 = 6 ∧ charSizeFor 4000 = 50 := by
  refine ⟨?_, ?_, ?_, ?_, ?_⟩
  · have hsz : setupCanvas (w + h + 1 + extra) ⟨w, h, ok, data⟩ s =
        startRendering (w + h + 1 + extra) ⟨w, h, ok, data⟩
          { s with canvasWidth := w, canvasHeight := h, bitmap := .blank,
                   charSize := charSizeFor w } := by
      simp [setupCanvas, hw, hh]
    rw [hsz]
    unfold startRendering
    obtain ⟨t, ht⟩ := renderMatrix_total ⟨w, h, ok, data⟩
      (if truthy s.animationId then
        cancelAnimationFrame (s.animationId.getD 0)
          { s with canvasWidth := w, canvasHeight := h, bitmap := .blank,
                   charSize := charSizeFor w }
       else { s with canvasWidth := w, canvasHeight := h, bitmap := .blank,
                     charSize := charSizeFor w })
      (by cases truthy s.animationId <;> exact charSizeFor_pos w) extra
    have hdims : ∀ b : Bool, (if b then
        cancelAnimationFrame (s.animationId.getD 0)
          { s with canvasWidth := w, canvasHeight := h, bitmap := .blank,
                   charSize := charSizeFor w }
       else { s with canvasWidth := w, canvasHeight := h, bitmap := .blank,
                     charSize := charSizeFor w }).canvasWidth = w ∧
       (if b then
        cancelAnimationFrame (s.animationId.getD 0)
          { s with canvasWidth := w, canvasHeight := h, bitmap := .blank,
                   charSize := charSizeFor w }
       else { s with canvasWidth := w, canvasHeight := h, bitmap := .blank,
                     charSize := charSizeFor w }).canvasHeight = h ∧
       (if b then
        cancelAnimationFrame (s.animationId.getD 0)
          { s with canvasWidth := w, canvasHeight := h, bitmap := .blank,
                   charSize := charSizeFor w }
       else { s with canvasWidth := w, canvasHeight := h, bitmap := .blank,
                     charSize := charSizeFor w }).charSize = charSizeFor w := by
      intro b; cases b <;> exact ⟨rfl, rfl, rfl⟩
    obtain ⟨e1, e2, e3⟩ := hdims (truthy s.animationId)
    rw [e1, e2] at ht
    obtain ⟨k1, k2, _⟩ := renderMatrix_keeps ht
    refine ⟨t, ht, ?_, ?_, ?_⟩
    · rw [k2, e1]
    · rw [k1, e3, charSizeFor_eq]
    · rw [k1, e3, charSizeFor_eq]; omega
  · intro v
    rw [charSizeFor_eq]
    exact ⟨rfl, by omega⟩
  · rw [charSizeFor_eq]; rfl
  · rw [charSizeFor_eq]; rfl
  · rw [charSizeFor_eq]; rfl

/-- C9 for a 640×480 video, from the running session. -/
theorem step_size_policy_witness :
    (0 < 640 ∧ 0 < 480) ∧
    (∃ t, setupCanvas (640 + 480 + 1 + 0) ⟨640, 480, false, []⟩ runningState = some t ∧
      t.canvasWidth = 640 ∧ t.charSize = max 6 (640 / 80) ∧ 6 ≤ t.charSize) ∧
    (∀ v : Nat, charSizeFor v = max 6 (v / 80) ∧ 6 ≤ charSizeFor v) ∧
    charSizeFor 640 = 8 ∧ charSizeFor 80 = 6 ∧ charSizeFor 4000 = 50 :=
  ⟨⟨by decide, by decide⟩,
    step_size_policy 640 480 false [] runningState 0 (by decide) (by decide)⟩

/-- C6: in the machine whose steps are the start of the camera,
`setupCanvas`, `startRendering`, a tick firing and `stopCamera`, every
reachable state has at most one pending tick, and it is the one whose handle
is in `animationId`; `startRendering` leaves none of the earlier ticks
pending. -/
theorem single_loop (s : State) (hr : Reachable s) :
    SingleLoop s ∧
    ∀ fuel f t, startRendering fuel f s = some t →
      SingleLoop t ∧ ∀ k ∈ s.pending, k ∉ t.pending := by
  have hs := inv_reachable hr
  refine ⟨hs.1, ?_⟩
  intro fuel f t ht
  refine ⟨(inv_startRendering hs ht).1, ?_⟩
  intro k hk hkt
  unfold startRendering at ht
  have hnew := renderMatrix_pending (pending_after_cancel hs.1) ht k hkt
  have hl : (if truthy s.animationId then cancelAnimationFrame (s.animationId.getD 0) s
      else s).lastHandle = s.lastHandle := by
    cases truthy s.animationId <;> rfl
  rw [hl] at hnew
  have := hs.2.1 k hk
  omega

/-- C6 at the running session, which is reachable. -/
theorem single_loop_witness :
    Reachable runningState ∧ SingleLoop runningState ∧
    ∀ fuel f t, startRendering fuel f runningState = some t →
      SingleLoop t ∧ ∀ k ∈ runningState.pending, k ∉ t.pending :=
  ⟨reachable_runningState, single_loop runningState reachable_runningState⟩

/-- C5 (as stated) fails: in the state in which start was never called
`stopCamera` returns without touching the surface, which stays blank rather
than cleared to black. -/
theorem stopCamera_fresh_not_black :
    Initial initialState ∧ stopCamera initialState = .ok initialState ∧
    initialState.bitmap = Bitmap.blank ∧ initialState.bitmap ≠ Bitmap.drawn [] := by
  refine ⟨initial_initialState, ?_, rfl, ?_⟩
  · rw [stopCamera_eq]; rfl
  · intro h; cases h

/-- C5 (amended): from every reachable state `stopCamera` completes without
error, a second call returns the same state, and afterwards no tick is pending,
`animationId` and `stream` are `null`, and the surface is cleared to black
when `ctx` and `canvas` are set and left as it was otherwise. -/
theorem stopCamera_idempotent (s : State) (hr : Reachable s) :
    ∃ t, stopCamera s = .ok t ∧ stopCamera t = .ok t ∧
      t.pending = [] ∧ t.animationId = none ∧ t.stream = .null ∧
      ((s.ctx = .object ∧ s.canvas = .object) → t.bitmap = .drawn []) ∧
      (¬ (s.ctx = .object ∧ s.canvas = .object) → t.bitmap = s.bitmap) := by
  obtain ⟨hp, ha⟩ := inv_stopped (inv_reachable hr)
  refine ⟨stopped s, stopCamera_eq s, ?_, hp, ha, rfl, ?_, ?_⟩
  · rw [stopCamera_eq, stopped_idem]
  · intro h
    simp [stopped, h]
  · intro h
    simp [stopped, h]

/-- C5 (amended) at the running session, which is reachable. -/
theorem stopCamera_idempotent_witness :
    Reachable runningState ∧ ∃ t, stopCamera runningState = .ok t ∧ stopCamera t = .ok t ∧
      t.pending = [] ∧ t.animationId = none ∧ t.stream = .null ∧
      ((runningState.ctx = .object ∧ runningState.canvas = .object) →
        t.bitmap = .drawn []) ∧
      (¬ (runningState.ctx = .object ∧ runningState.canvas = .object) →
        t.bitmap = runningState.bitmap) :=
  ⟨reachable_runningState, stopCamera_idempotent runningState reachable_runningState⟩

end MatrixCam
